import Mathlib

/-!
# Trigger subsystem of octosql: shallow embedding and verified properties

The in-memory triggers of `execution/triggers.go` (`CountingTrigger`,
`WatermarkTrigger`) are embedded as pure state-passing functions. The ordered
container they use (`github.com/google/btree`) is an external library; it is
represented by the ascending duplicate-free list of the items it holds, with
the four operations the triggers call. The walk of `Ascend` reads that list
live, index by index, as the library reads the item slice of a node: an item
deleted by the iterator during the walk moves the later items forward.

The delay trigger of `execution/trigger/delay.go` is embedded over any
implementation of the methods of `TimeSortedKeys` and, for the claims about the
index, over the index described in the spec. The overload resolution of
`logical/tvf.go` and the code generation of `wasmsql/wasm/expression.go` follow.
-/

namespace Octosql

/-! ## Data model -/

/-- Instants (`time.Time`), as nanoseconds on one common axis. -/
abbrev Time := Int

/-- The zero value `time.Time{}` (January 1, year 1, 00:00 UTC), in nanoseconds
relative to the Unix epoch. -/
def zeroTime : Time := -62135596800000000000

/-- Modelled from the spec: the typed values a `GroupKey` is made of (the type
`octosql.Value` is declared outside the files at hand). A value is null, an
integer or a time. -/
inductive Value where
  | null : Value
  | int (v : Int) : Value
  | time (t : Time) : Value
  deriving DecidableEq

namespace Value

/-- Position of the value's type among the value types. -/
def typeID : Value → Nat
  | .null => 0
  | .int _ => 1
  | .time _ => 2

/-- The content of the value on an integer axis. -/
def payload : Value → Int
  | .null => 0
  | .int v => v
  | .time t => t

/-- The `Time` field of a value: the instant of a time value, the zero time
for every other value. -/
def Time : Value → Octosql.Time
  | .time t => t
  | _ => zeroTime

/-- The pair a value is compared by. -/
def sortKey (v : Value) : Lex (Nat × Int) := toLex (v.typeID, v.payload)

/-- Modelled from the spec: values are totally ordered, by type first and by
content within one type; equality is structural. -/
instance : LinearOrder Value :=
  LinearOrder.lift' sortKey (by
    intro a b h
    have h1 : a.typeID = b.typeID := congrArg (fun p => (ofLex p).1) h
    have h2 : a.payload = b.payload := congrArg (fun p => (ofLex p).2) h
    cases a <;> cases b <;> simp_all [typeID, payload])

end Value

/-- Modelled from the spec: a `GroupKey` is a tuple of typed values
(`type GroupKey []octosql.Value`). -/
abbrev GroupKey := List Value

/-- Modelled from the spec: the `Less` method of a `GroupKey` (declared outside
the files at hand): lexicographic order over the tuple; a tuple that begins a longer one comes
before it. -/
def GroupKey.Less : GroupKey → GroupKey → Bool
  | [], [] => false
  | [], _ :: _ => true
  | _ :: _, [] => false
  | a :: as, b :: bs =>
    if a < b then true else if b < a then false else GroupKey.Less as bs

/-! ## The ordered container (`btree.BTree`) -/

/-- An item of a tree (`btree.Item`): it is ordered by the group key it
carries. For a `GroupKey` the key is the item itself; a `countingTriggerItem`
embeds its `GroupKey` and inherits its `Less`. -/
class BTreeItem (ι : Type) where
  groupKey : ι → GroupKey

instance : BTreeItem GroupKey := ⟨id⟩

/-- A `btree.BTree` by its items in ascending order. For a tree of one node
(the root is a leaf as long as the tree has never held more items than one
node takes, twice the degree less one) this list is the item slice of that
node, which `Ascend` reads while it walks. -/
abbrev BTree (ι : Type) := List ι

namespace BTree

variable {ι : Type} [BTreeItem ι]

/-- Two keys the tree cannot tell apart: neither is less than the other. -/
def same (a b : GroupKey) : Bool := !GroupKey.Less a b && !GroupKey.Less b a

/-- Function `btree.New`: the empty tree. -/
def New : BTree ι := []

/-- Method `Get(key)`: the item of the tree equal to `key`, or nil. -/
def Get (t : BTree ι) (key : GroupKey) : Option ι :=
  t.find? (fun x => same key (BTreeItem.groupKey x))

/-- Method `ReplaceOrInsert(item)`: puts `item` at its place in the order; an item
equal to it is replaced. -/
def ReplaceOrInsert (item : ι) : BTree ι → BTree ι
  | [] => [item]
  | x :: xs =>
    if GroupKey.Less (BTreeItem.groupKey item) (BTreeItem.groupKey x) then item :: x :: xs
    else if GroupKey.Less (BTreeItem.groupKey x) (BTreeItem.groupKey item) then
      x :: ReplaceOrInsert item xs
    else item :: xs

/-- Method `Delete(item)`: removes the item equal to the one with the given key. -/
def Delete (key : GroupKey) : BTree ι → BTree ι
  | [] => []
  | x :: xs => if same key (BTreeItem.groupKey x) then xs else x :: Delete key xs

/-- The loop `for i := index; i < len(n.items); i++` of `node.iterate`, the
walk behind `Ascend`: at every step the item at index `i` of the live item
slice is read from the caller's state `σ` and given to the iterator, which may
change that slice; the walk ends when the index is past the end of the slice,
when the iterator returns false, or with the iterator's failure (a Go panic,
`none`). The fuel bounds the number of steps. -/
def iterate {σ : Type} (items : σ → BTree ι) (iterator : σ → ι → Option (σ × Bool)) :
    Nat → Nat → σ → Option σ
  | 0, _, s => some s
  | fuel + 1, i, s =>
    match (items s)[i]? with
    | none => some s
    | some x =>
      match iterator s x with
      | none => none
      | some (s1, true) => iterate items iterator fuel (i + 1) s1
      | some (s1, false) => some s1

/-- Method `Ascend(iterator)`: the walk from index 0 over the live item slice.
No iterator of the triggers adds an item, so the walk takes at most as many
steps as the slice has items at the start. -/
def Ascend {σ : Type} (items : σ → BTree ι) (iterator : σ → ι → Option (σ × Bool)) (s : σ) :
    Option σ :=
  iterate items iterator (items s).length 0 s

/-- The invariant of a tree: its items are strictly ascending by key. -/
def Ordered (t : BTree ι) : Prop :=
  t.Pairwise (fun x y => GroupKey.Less (BTreeItem.groupKey x) (BTreeItem.groupKey y) = true)

end BTree

/-! ## CountingTrigger -/

/-- Width of Go's `uint` (64-bit platforms). -/
def uintBits : Nat := 64

/-- The struct `countingTriggerItem`: a group key with its count. -/
structure countingTriggerItem where
  GroupKey : GroupKey
  Count : Nat
  deriving DecidableEq

instance : BTreeItem countingTriggerItem := ⟨countingTriggerItem.GroupKey⟩

/-- The struct `CountingTrigger`. -/
structure CountingTrigger where
  triggerAfter : Nat
  counts : BTree countingTriggerItem
  endOfStreamReached : Bool
  toTrigger : List GroupKey
  deriving DecidableEq

/-- Function `NewCountingTriggerPrototype(triggerAfter)()`: the trigger the prototype
builds. The Go function has no error result and no check on `triggerAfter`. -/
def NewCountingTriggerPrototype (triggerAfter : Nat) : CountingTrigger :=
  { triggerAfter := triggerAfter
    counts := BTree.New
    endOfStreamReached := false
    toTrigger := [] }

namespace CountingTrigger

/-- Method `EndOfStreamReached()`. -/
def EndOfStreamReached (c : CountingTrigger) : CountingTrigger :=
  { c with endOfStreamReached := true }

/-- Method `WatermarkReceived(watermark)`: empty body. -/
def WatermarkReceived (c : CountingTrigger) (_watermark : Time) : CountingTrigger := c

/-- Method `KeyReceived(key)`. The item is looked up, or inserted with count zero when
absent; its count is incremented in place (the tree holds a pointer to it; the
in-place write is the replacement of the tree's item of that key), with
wrap-around at the width of `uint`; when the count equals `triggerAfter` the
key is appended to `toTrigger` and the item is deleted from the tree. -/
def KeyReceived (c : CountingTrigger) (key : GroupKey) : CountingTrigger :=
  let found : countingTriggerItem × BTree countingTriggerItem :=
    match BTree.Get c.counts key with
    | none =>
      let itemTyped : countingTriggerItem := { GroupKey := key, Count := 0 }
      (itemTyped, BTree.ReplaceOrInsert itemTyped c.counts)
    | some item => (item, c.counts)
  let itemTyped : countingTriggerItem :=
    { found.1 with Count := (found.1.Count + 1) % 2 ^ uintBits }
  let counts := BTree.ReplaceOrInsert itemTyped found.2
  if itemTyped.Count = c.triggerAfter then
    { c with
      toTrigger := c.toTrigger ++ [itemTyped.GroupKey]
      counts := BTree.Delete itemTyped.GroupKey counts }
  else
    { c with counts := counts }

/-- Method `Poll()`: the returned slice and the trigger afterwards. `toTrigger` is
cut to length zero; with the end-of-stream flag set the keys of the counts tree
are appended to the output in ascending order (the iterator always returns
true, touches only the output and cannot fail, so the walk always ends with a
result). -/
def Poll (c : CountingTrigger) : List GroupKey × CountingTrigger :=
  let output := c.toTrigger
  let c1 := { c with toTrigger := [] }
  if c1.endOfStreamReached then
    match BTree.Ascend (fun (_ : List GroupKey) => c1.counts)
        (fun (out : List GroupKey) (item : countingTriggerItem) =>
          some (out ++ [item.GroupKey], true))
        output with
    | some out => (out, c1)
    | none => (output, c1)
  else (output, c1)

end CountingTrigger

/-! ## WatermarkTrigger -/

/-- The struct `WatermarkTrigger`. -/
structure WatermarkTrigger where
  timeKeys : BTree GroupKey
  endOfStreamReached : Bool
  watermark : Time
  outputKeysSlice : List GroupKey
  deriving DecidableEq

/-- Function `NewWatermarkTriggerPrototype()()`: the trigger the prototype builds. -/
def NewWatermarkTriggerPrototype : WatermarkTrigger :=
  { timeKeys := BTree.New
    endOfStreamReached := false
    watermark := zeroTime
    outputKeysSlice := [] }

namespace WatermarkTrigger

/-- Method `EndOfStreamReached()`. -/
def EndOfStreamReached (c : WatermarkTrigger) : WatermarkTrigger :=
  { c with endOfStreamReached := true }

/-- Method `WatermarkReceived(watermark)`: the watermark is stored. -/
def WatermarkReceived (c : WatermarkTrigger) (watermark : Time) : WatermarkTrigger :=
  { c with watermark := watermark }

/-- Method `KeyReceived(key)`. -/
def KeyReceived (c : WatermarkTrigger) (key : GroupKey) : WatermarkTrigger :=
  { c with timeKeys := BTree.ReplaceOrInsert key c.timeKeys }

/-- The iterator of `Poll` before end of stream: `itemTyped[0]` fails on an
empty key (index out of range); a key whose position-0 time is after the
watermark stops the walk; any other key is appended to the output and deleted
from the tree, the very slice the walk is reading. -/
def pollIterator (c : WatermarkTrigger) (item : GroupKey) : Option (WatermarkTrigger × Bool) :=
  match item with
  | [] => none
  | v :: _ =>
    if v.Time > c.watermark then some (c, false)
    else
      some ({ c with
              outputKeysSlice := c.outputKeysSlice ++ [item]
              timeKeys := BTree.Delete item c.timeKeys }, true)

/-- The iterator of `Poll` after end of stream: every key is appended to the
output; nothing is deleted. -/
def drainIterator (c : WatermarkTrigger) (item : GroupKey) : Option (WatermarkTrigger × Bool) :=
  some ({ c with outputKeysSlice := c.outputKeysSlice ++ [item] }, true)

/-- Method `Poll()`: the returned slice and the trigger afterwards, or `none` when
the call panics. -/
def Poll (c : WatermarkTrigger) : Option (List GroupKey × WatermarkTrigger) :=
  let c1 := { c with outputKeysSlice := [] }
  let walked :=
    if !c1.endOfStreamReached then BTree.Ascend WatermarkTrigger.timeKeys pollIterator c1
    else BTree.Ascend WatermarkTrigger.timeKeys drainIterator c1
  match walked with
  | none => none
  | some c2 => some (c2.outputKeysSlice, c2)

end WatermarkTrigger

/-! ## Call sequences -/

/-- One call of the `Trigger` interface. -/
inductive TriggerCall where
  | EndOfStreamReached : TriggerCall
  | WatermarkReceived (watermark : Time) : TriggerCall
  | KeyReceived (key : GroupKey) : TriggerCall
  | Poll : TriggerCall
  deriving DecidableEq

/-- The trigger after one call (the slice a `Poll` returns is dropped). -/
def CountingTrigger.call (c : CountingTrigger) : TriggerCall → CountingTrigger
  | .EndOfStreamReached => c.EndOfStreamReached
  | .WatermarkReceived w => c.WatermarkReceived w
  | .KeyReceived k => c.KeyReceived k
  | .Poll => c.Poll.2

/-- The trigger after a sequence of calls, first call first. -/
def CountingTrigger.calls (c : CountingTrigger) (l : List TriggerCall) : CountingTrigger :=
  l.foldl CountingTrigger.call c

/-! ## Reference semantics of the counting rule, in the words of the spec -/

/-- The keys queued by a sequence of receipts, told by running counts: a
receipt raises the running count of its key by one; when the count reaches `N`
the key is queued and its count restarts from zero. -/
def crossingsFrom (N : Nat) (count : GroupKey → Nat) : List GroupKey → List GroupKey
  | [] => []
  | k :: ks =>
    if count k + 1 = N then k :: crossingsFrom N (Function.update count k 0) ks
    else crossingsFrom N (Function.update count k (count k + 1)) ks

/-- The threshold crossings of a sequence of receipts on a fresh trigger, in
the order in which they happen. -/
def thresholdCrossings (N : Nat) (keys : List GroupKey) : List GroupKey :=
  crossingsFrom N (fun _ => 0) keys

/-! ## Event time of a key, in the words of the spec -/

/-- The event time of a key: the time value at position 0, if there is one. -/
def GroupKey.eventTime : GroupKey → Option Time
  | Value.time t :: _ => some t
  | _ => none

/-- The key has an event time and it is not after the watermark. -/
def notAfter (watermark : Time) (key : GroupKey) : Bool :=
  match key.eventTime with
  | some t => decide (t ≤ watermark)
  | none => false

/-! ## Scenario data -/

/-- Group key `A` of the counting scenarios. -/
def keyA : GroupKey := [Value.int 1]

/-- Group key `B` of the counting scenarios. -/
def keyB : GroupKey := [Value.int 2]

/-- Group key `(t=20, x)` of the watermark scenario. -/
def keyX20 : GroupKey := [Value.time 20, Value.int 0]

/-- Group key `(t=10, y)` of the watermark scenario. -/
def keyY10 : GroupKey := [Value.time 10, Value.int 1]

/-- Group key `(t=15, z)` of the watermark scenario. -/
def keyZ15 : GroupKey := [Value.time 15, Value.int 2]

/-- A fresh watermark trigger after the receipts `(20,x), (10,y), (15,z)`. -/
def watermarkScenario : WatermarkTrigger :=
  [keyX20, keyY10, keyZ15].foldl WatermarkTrigger.KeyReceived NewWatermarkTriggerPrototype

/-- A fresh `CountingTrigger(5)` after the receipts `A, A, B` and end of stream. -/
def flushScenario : CountingTrigger :=
  ([keyA, keyA, keyB].foldl CountingTrigger.KeyReceived
    (NewCountingTriggerPrototype 5)).EndOfStreamReached

/-! ## Auxiliary notions used in the proofs -/

/-- Orderedness of a concrete tree can be computed. -/
instance BTree.decidableOrdered {ι : Type} [BTreeItem ι] (t : BTree ι) :
    Decidable (BTree.Ordered t) := by
  unfold BTree.Ordered
  infer_instance

namespace CountingTrigger

/-- The count `KeyReceived` reads for a key: that of its item, zero without one. -/
def storedCount (c : CountingTrigger) (key : GroupKey) : Nat :=
  match BTree.Get c.counts key with
  | none => 0
  | some item => item.Count

/-- The counts tree holds exactly the running counts `cnt`: one item per key
of non-zero count, none for a key of count zero. -/
def Tracks (c : CountingTrigger) (cnt : GroupKey → Nat) : Prop :=
  BTree.Ordered c.counts ∧
    ∀ k, BTree.Get c.counts k =
      if cnt k = 0 then none else some ({ GroupKey := k, Count := cnt k } : countingTriggerItem)

/-- What every call keeps true of a trigger with threshold `N`: the counts
tree is ordered and every count lies between 1 and `N - 1`. -/
def CountsInv (N : Nat) (c : CountingTrigger) : Prop :=
  c.triggerAfter = N ∧ BTree.Ordered c.counts ∧
    ∀ item ∈ c.counts, 1 ≤ item.Count ∧ item.Count ≤ N - 1

end CountingTrigger

namespace WatermarkTrigger

/-- The test of the `Poll` iterator on a non-empty key: its position-0 `Time`
is not after the watermark. -/
def passes (watermark : Time) (key : GroupKey) : Bool :=
  match key with
  | [] => false
  | v :: _ => !decide (v.Time > watermark)

/-- What the walk of `Poll` before end of stream does to the part of the set
it has not reached: a key that passes is returned and deleted, which moves the
next key into its place, and the walk steps over that key and leaves it in the
set; the first key that does not pass ends the walk. The returned keys and
the keys left. -/
def liveWalk (watermark : Time) : List GroupKey → List GroupKey × List GroupKey
  | [] => ([], [])
  | [x] => if passes watermark x then ([x], []) else ([], [x])
  | x :: y :: rest =>
    if passes watermark x then
      (x :: (liveWalk watermark rest).1, y :: (liveWalk watermark rest).2)
    else ([], x :: y :: rest)

end WatermarkTrigger

/-! ## WASM expressions (`wasmsql/wasm/expression.go`) -/

namespace Wasm

/-- Opcode `wasm.OpcodeI32Const` of the WebAssembly binary format. -/
def OpcodeI32Const : Nat := 0x41

/-- Opcode `wasm.OpcodeLocalGet` of the WebAssembly binary format. -/
def OpcodeLocalGet : Nat := 0x20

/-- Opcode `wasm.OpcodeI32Add` of the WebAssembly binary format. -/
def OpcodeI32Add : Nat := 0x6a

/-- The loop of `leb128.EncodeUint64` (external library): seven low bits per
byte, the high bit set on every byte but the last. The fuel bounds the number
of bytes. -/
def encodeUnsigned : Nat → Nat → List Nat
  | 0, _ => []
  | fuel + 1, value =>
    if value / 128 ≠ 0 then (value % 128 + 128) :: encodeUnsigned fuel (value / 128)
    else [value % 128]

/-- Function `leb128.EncodeUint32(value)`: the unsigned LEB128 bytes of a
32-bit value, at most five. -/
def EncodeUint32 (value : Nat) : List Nat := encodeUnsigned 5 (value % 2 ^ 32)

/-- The loop of `leb128.EncodeInt64` (external library): seven low bits per
byte; the last byte is the one after which the shifted value is 0 with bit 6
clear, or -1 with bit 6 set. The fuel bounds the number of bytes. -/
def encodeSigned : Nat → Int → List Nat
  | 0, _ => []
  | fuel + 1, value =>
    let b : Nat := (value % 128).toNat
    let signBit : Bool := decide (64 ≤ b)
    let rest : Int := value / 128
    if (rest ≠ -1 ∨ signBit = false) ∧ (rest ≠ 0 ∨ signBit = true) then
      (b + 128) :: encodeSigned fuel rest
    else [b]

/-- Function `leb128.EncodeInt32(value)`: the signed LEB128 bytes of an `int32`. -/
def EncodeInt32 (value : Int) : List Nat := encodeSigned 10 value

/-- The struct `VariableMetadata` (declared outside the files at hand): the
index of the local variable. -/
structure VariableMetadata where
  Index : Nat
  deriving DecidableEq

/-- The struct `GenerationContext` (declared outside the files at hand), as far
as `Evaluate` uses it: the code bytes generated so far. -/
structure GenerationContext where
  Code : List Nat
  deriving DecidableEq

/-- Method `AppendCode(bytes...)` of the generation context: the bytes are put
at the end of the code. -/
def GenerationContext.AppendCode (ctx : GenerationContext) (bytes : List Nat) :
    GenerationContext :=
  { ctx with Code := ctx.Code ++ bytes }

/-- The map `map[string]VariableMetadata`, read by name only. -/
abbrev Variables := String → Option VariableMetadata

/-- The implementations of the interface `Expression` in the file:
`ConstantInteger`, `ReadLocal` and `AddIntegers`. -/
inductive Expression where
  | ConstantInteger (Value : Int) : Expression
  | ReadLocal (Name : String) : Expression
  | AddIntegers (Left Right : Expression) : Expression
  deriving DecidableEq

/-- The errors `Evaluate` builds with `fmt.Errorf`. -/
inductive EvaluateError where
  | unknownVariable (name : String) : EvaluateError
  | leftArgument (cause : EvaluateError) : EvaluateError
  | rightArgument (cause : EvaluateError) : EvaluateError
  deriving DecidableEq

/-- Method `Evaluate(ctx, variables)` of the three expressions: the generation
context afterwards (it is changed in place, also when an error is returned)
and the error, if any. -/
def Expression.Evaluate : Expression → GenerationContext → Variables →
    GenerationContext × Option EvaluateError
  | .ConstantInteger value, ctx, _ =>
    ((ctx.AppendCode [OpcodeI32Const]).AppendCode (EncodeInt32 value), none)
  | .ReadLocal name, ctx, vars =>
    match vars name with
    | none => (ctx, some (.unknownVariable name))
    | some varMeta =>
      ((ctx.AppendCode [OpcodeLocalGet]).AppendCode (EncodeUint32 varMeta.Index), none)
  | .AddIntegers left right, ctx, vars =>
    match left.Evaluate ctx vars with
    | (ctx1, some err) => (ctx1, some (.leftArgument err))
    | (ctx1, none) =>
      match right.Evaluate ctx1 vars with
      | (ctx2, some err) => (ctx2, some (.rightArgument err))
      | (ctx2, none) => (ctx2.AppendCode [OpcodeI32Add], none)

/-- The tree holds a `ReadLocal` whose name is not in the variables map. -/
def Expression.hasUnknownLocal (vars : Variables) : Expression → Bool
  | .ConstantInteger _ => false
  | .ReadLocal name => (vars name).isNone
  | .AddIntegers left right =>
    left.hasUnknownLocal vars || right.hasUnknownLocal vars

/-- The postfix encoding of a tree: a constant is `i32.const` and the signed
LEB128 of its value, a local is `local.get` and the unsigned LEB128 of its
index (nothing for an unknown name), an addition is the code of the left
operand, the code of the right operand and `i32.add`. -/
def Expression.postfixCode (vars : Variables) : Expression → List Nat
  | .ConstantInteger value => OpcodeI32Const :: EncodeInt32 value
  | .ReadLocal name =>
    match vars name with
    | none => []
    | some varMeta => OpcodeLocalGet :: EncodeUint32 varMeta.Index
  | .AddIntegers left right =>
    left.postfixCode vars ++ right.postfixCode vars ++ [OpcodeI32Add]

/-- The bytes a call of `Evaluate` leaves appended, also when it fails: the
code of what was evaluated before the first unknown name. -/
def Expression.emitted (vars : Variables) : Expression → List Nat
  | .ConstantInteger value => OpcodeI32Const :: EncodeInt32 value
  | .ReadLocal name =>
    match vars name with
    | none => []
    | some varMeta => OpcodeLocalGet :: EncodeUint32 varMeta.Index
  | .AddIntegers left right =>
    if left.hasUnknownLocal vars then left.emitted vars
    else if right.hasUnknownLocal vars then
      left.emitted vars ++ right.emitted vars
    else left.emitted vars ++ right.emitted vars ++ [OpcodeI32Add]

/-- The variables map with the single entry `x` at index 0. -/
def onlyX : Variables := fun name => if name = "x" then some { Index := 0 } else none

end Wasm

/-! ## DelayTrigger (`execution/trigger/delay.go`) -/

namespace Trigger

/-- Go errors as the delay trigger meets them: the sentinel
`storage.ErrNotFound`, any other failure of the storage, and an error wrapped
with a context message by `errors.Wrap`. -/
inductive Error where
  | ErrNotFound : Error
  | failure (code : Nat) : Error
  | Wrap (cause : Error) (message : String) : Error
  deriving DecidableEq

/-- The methods of `TimeSortedKeys` the trigger calls (the type is declared
outside the files at hand), as functions on the state `σ` of the storage
transaction the handle is built on. Each returns the state afterwards and
its Go results. -/
structure TimeSortedKeys (σ : Type) where
  Update : σ → Value → Time → σ × Option Error
  GetUntil : σ → Time → σ × (List Value × List Time × Option Error)
  Delete : σ → Value → Time → σ × Option Error
  DeleteByKey : σ → Value → σ × Option Error

/-- The struct `DelayTrigger`. The field `clock` is a function read once per
call; its reading is passed to each method as the argument `now`. -/
structure DelayTrigger where
  delay : Int
  deriving DecidableEq

/-- Function `NewDelayTrigger(delay, clock)`. -/
def NewDelayTrigger (delay : Int) : DelayTrigger := { delay := delay }

namespace DelayTrigger

variable {σ : Type}

/-- Method `RecordReceived(ctx, tx, key, eventTime)`: the send time is the
clock reading plus the delay; an error of `Update` is returned wrapped. -/
def RecordReceived (dt : DelayTrigger) (timeKeys : TimeSortedKeys σ) (now : Time) (tx : σ)
    (key : Value) (_eventTime : Time) : σ × Option Error :=
  let sendTime := now + dt.delay
  match timeKeys.Update tx key sendTime with
  | (tx1, some err) => (tx1, some (Error.Wrap err "couldn't update Trigger time for key"))
  | (tx1, none) => (tx1, none)

/-- Method `UpdateWatermark(ctx, tx, watermark)`: returns nil. -/
def UpdateWatermark (_dt : DelayTrigger) (tx : σ) (_watermark : Time) : σ × Option Error :=
  (tx, none)

/-- The loop `for i := range keys` of `PollKeysToFire`: `Delete(keys[i],
times[i])` in turn; the first error ends the loop and is returned wrapped;
`times[i]` out of range is a Go panic (`none`). -/
def deleteLoop (timeKeys : TimeSortedKeys σ) : List Value → List Time → σ →
    Option (σ × Option Error)
  | [], _, tx => some (tx, none)
  | _ :: _, [], _ => none
  | key :: keys, time :: times, tx =>
    match timeKeys.Delete tx key time with
    | (tx1, some err) => some (tx1, some (Error.Wrap err "couldn't delete key"))
    | (tx1, none) => deleteLoop timeKeys keys times tx1

/-- Method `PollKeysToFire(ctx, tx)`: the state afterwards, the returned slice
(nil is the empty list) and the returned error; `none` when the call panics. -/
def PollKeysToFire (_dt : DelayTrigger) (timeKeys : TimeSortedKeys σ) (now : Time) (tx : σ) :
    Option (σ × List Value × Option Error) :=
  match timeKeys.GetUntil tx now with
  | (tx1, (_, _, some err)) =>
    some (tx1, [], some (Error.Wrap err "couldn't get first key by time"))
  | (tx1, (keys, times, none)) =>
    match deleteLoop timeKeys keys times tx1 with
    | none => none
    | some (tx2, some err) => some (tx2, [], some err)
    | some (tx2, none) => some (tx2, keys, none)

/-- Method `KeysFired(ctx, tx, keys)`: `DeleteByKey` on each key in turn; an
error other than `storage.ErrNotFound` ends the loop and is returned
wrapped. -/
def KeysFired (dt : DelayTrigger) (timeKeys : TimeSortedKeys σ) : σ → List Value →
    σ × Option Error
  | tx, [] => (tx, none)
  | tx, key :: keys =>
    match timeKeys.DeleteByKey tx key with
    | (tx1, some err) =>
      if err ≠ Error.ErrNotFound then
        (tx1, some (Error.Wrap err "couldn't delete send time for key"))
      else KeysFired dt timeKeys tx1 keys
    | (tx1, none) => KeysFired dt timeKeys tx1 keys

/-- The state after `DeleteByKey` on each key of a list in turn. -/
def afterDeleteByKeys (timeKeys : TimeSortedKeys σ) (tx : σ) (keys : List Value) : σ :=
  keys.foldl (fun s key => (timeKeys.DeleteByKey s key).1) tx

/-- Every `DeleteByKey` of the run over the list returns nil or
`storage.ErrNotFound`. -/
def allTolerated (timeKeys : TimeSortedKeys σ) : σ → List Value → Prop
  | _, [] => True
  | tx, key :: keys =>
    ((timeKeys.DeleteByKey tx key).2 = none ∨
      (timeKeys.DeleteByKey tx key).2 = some Error.ErrNotFound) ∧
    allTolerated timeKeys (timeKeys.DeleteByKey tx key).1 keys

end DelayTrigger

/-! ### The index of the spec -/

/-- Modelled from the spec: the state of `TimeSortedKeys` (the type and its
methods are declared outside the files at hand): the key-index, key to send
time, and the time-index, the pairs (send time, key) in ascending order. The
byte encoding of the store is left out. -/
structure KeyTimeIndex where
  k2t : List (Value × Time)
  t2k : List (Time × Value)
  deriving DecidableEq

/-- Order of the time-index: by send time first, then by key. -/
def entryLE (a b : Time × Value) : Prop := a.1 < b.1 ∨ (a.1 = b.1 ∧ a.2 ≤ b.2)

/-- The order of the time-index can be computed. -/
instance entryLE.decidable : DecidableRel entryLE := fun a b => by
  unfold entryLE
  infer_instance

/-- The order of the time-index is total. -/
instance entryLE.isTotal : IsTotal (Time × Value) entryLE :=
  ⟨fun a b => by
    unfold entryLE
    rcases lt_trichotomy a.1 b.1 with h | h | h
    · exact Or.inl (Or.inl h)
    · rcases le_total a.2 b.2 with h2 | h2
      · exact Or.inl (Or.inr ⟨h, h2⟩)
      · exact Or.inr (Or.inr ⟨h.symm, h2⟩)
    · exact Or.inr (Or.inl h)⟩

/-- The order of the time-index is transitive. -/
instance entryLE.isTrans : IsTrans (Time × Value) entryLE :=
  ⟨fun a b c hab hbc => by
    unfold entryLE at *
    rcases hab with h1 | ⟨h1, h2⟩
    · rcases hbc with h3 | ⟨h3, _⟩
      · exact Or.inl (lt_trans h1 h3)
      · exact Or.inl (h3 ▸ h1)
    · rcases hbc with h3 | ⟨h3, h4⟩
      · exact Or.inl (h1 ▸ h3)
      · exact Or.inr ⟨h1.trans h3, le_trans h2 h4⟩⟩

/-- The value stored for a key in a list of key-value pairs of a store. -/
def lookupTime (l : List (Value × Time)) (key : Value) : Option Time :=
  (l.find? (fun e => decide (e.1 = key))).map Prod.snd

namespace KeyTimeIndex

/-- The due entries at the instant `t`: the start of the time-index through
all entries with send time `≤ t`. -/
def due (s : KeyTimeIndex) (t : Time) : List (Time × Value) :=
  s.t2k.takeWhile (fun e => decide (e.1 ≤ t))

/-- The empty index. -/
def empty : KeyTimeIndex := { k2t := [], t2k := [] }

/-- Reading `key → time` in the key-index. -/
def sendTime (s : KeyTimeIndex) (key : Value) : Option Time := lookupTime s.k2t key

/-- Modelled from the spec: `update(key, new_time)`: if `key` already has a
`prev_time`, remove `(prev_time, key)` from the time-index; write
`(new_time, key)` to the time-index; write `key → new_time` to the key-index. -/
def Update (s : KeyTimeIndex) (key : Value) (newTime : Time) : KeyTimeIndex :=
  let t2k1 :=
    match s.sendTime key with
    | some prevTime => s.t2k.filter (fun e => decide (e ≠ (prevTime, key)))
    | none => s.t2k
  { k2t := (key, newTime) :: s.k2t.filter (fun e => decide (e.1 ≠ key))
    t2k := List.orderedInsert entryLE (newTime, key)
      (t2k1.filter (fun e => decide (e ≠ (newTime, key)))) }

/-- Modelled from the spec: `get_until(t)`: scan the time-index from the start
through all entries with send time `≤ t`; the keys and the times, of equal
length. -/
def GetUntil (s : KeyTimeIndex) (t : Time) : List Value × List Time :=
  ((s.due t).map Prod.snd, (s.due t).map Prod.fst)

/-- Modelled from the spec: `delete(key, time)`: remove both `(time, key)` and
`key → time`; quiet if absent. -/
def Delete (s : KeyTimeIndex) (key : Value) (time : Time) : KeyTimeIndex :=
  { k2t := s.k2t.filter (fun e => decide (e.1 ≠ key))
    t2k := s.t2k.filter (fun e => decide (e ≠ (time, key))) }

/-- Modelled from the spec: `delete_by_key(key)`: read `key → time`; if
present, `delete(key, time)`; otherwise the not-found signal. -/
def DeleteByKey (s : KeyTimeIndex) (key : Value) : KeyTimeIndex × Option Error :=
  match s.sendTime key with
  | some time => (s.Delete key time, none)
  | none => (s, some Error.ErrNotFound)

/-- The invariant of the index in the spec: the time-index is ascending and
holds `(t, key)` exactly when the key-index maps `key` to `t`. -/
def Consistent (s : KeyTimeIndex) : Prop :=
  s.t2k.Sorted entryLE ∧ ∀ key t, (t, key) ∈ s.t2k ↔ s.sendTime key = some t

end KeyTimeIndex

/-- Modelled from the spec: `TimeSortedKeys` on the index of the spec, with no
storage failure. -/
def specTimeSortedKeys : TimeSortedKeys KeyTimeIndex where
  Update := fun s key time => (s.Update key time, none)
  GetUntil := fun s t => (s, ((s.GetUntil t).1, (s.GetUntil t).2, none))
  Delete := fun s key time => (s.Delete key time, none)
  DeleteByKey := fun s key => s.DeleteByKey key

/-- The empty index after two receipts of the key 1 on the trigger of delay
5 s, at the clock readings 0 and 3 s (scenario S3), in nanoseconds. -/
def delayScenario : KeyTimeIndex :=
  ((NewDelayTrigger 5000000000).RecordReceived specTimeSortedKeys 3000000000
    ((NewDelayTrigger 5000000000).RecordReceived specTimeSortedKeys 0
      KeyTimeIndex.empty (.int 1) 0).1 (.int 1) 0).1

/-- A storage that logs the keys `DeleteByKey` is called on and answers by
the key: nil for an integer, `storage.ErrNotFound` for a null, a failure for a
time. -/
def loggingTimeSortedKeys : TimeSortedKeys (List Value) where
  Update := fun log _ _ => (log, none)
  GetUntil := fun log _ => (log, ([], [], none))
  Delete := fun log _ _ => (log, none)
  DeleteByKey := fun log key =>
    (log ++ [key],
      match key with
      | .int _ => none
      | .null => some Error.ErrNotFound
      | .time _ => some (Error.failure 1))

/-- A storage whose `GetUntil` returns the keys 1, 2, 3 and whose `Delete`
fails on the key 2; the state logs the deleted keys. -/
def failingTimeSortedKeys : TimeSortedKeys (List Value) where
  Update := fun log _ _ => (log, none)
  GetUntil := fun log _ => (log, ([.int 1, .int 2, .int 3], [0, 0, 0], none))
  Delete := fun log key _ =>
    if key = .int 2 then (log, some (Error.failure 7)) else (log ++ [key], none)
  DeleteByKey := fun log _ => (log, none)

end Trigger

namespace Trigger

/-- Every `Delete` of the run of the loop of `PollKeysToFire` returns nil. -/
def DelayTrigger.deletesSucceed {σ : Type} (timeKeys : TimeSortedKeys σ) :
    σ → List Value → List Time → Prop
  | _, [], _ => True
  | _, _ :: _, [] => True
  | tx, key :: keys, time :: times =>
    (timeKeys.Delete tx key time).2 = none ∧
      DelayTrigger.deletesSucceed timeKeys (timeKeys.Delete tx key time).1 keys times

end Trigger

/-! ## Table valued functions (`logical/tvf.go`) -/

namespace Logical

/-- A Go map with string keys, as the list of its entries in the order in
which a `range` loop visits them. -/
abbrev GoMap (α : Type) := List (String × α)

/-- The map index expression `m[name]`: the value and whether it is there. -/
def GoMap.get {α : Type} (m : GoMap α) (name : String) : Option α :=
  (m.find? (fun e => decide (e.1 = name))).map Prod.snd

/-- A list of entries is a map: no name occurs twice. -/
def GoMap.Distinct {α : Type} (m : GoMap α) : Prop := (m.map Prod.fst).Nodup

/-- The relation `octosql.TypeRelation` between two types (declared outside
the files at hand), an integer. -/
abbrev TypeRelation := Nat

/-- Constant `octosql.TypeRelationIsnt`. -/
def TypeRelationIsnt : TypeRelation := 0

/-- Constant `octosql.TypeRelationMaybe`. -/
def TypeRelationMaybe : TypeRelation := 1

/-- Constant `octosql.TypeRelationIs`. -/
def TypeRelationIs : TypeRelation := 2

/-- The method `Is` of `octosql.Type` (declared outside the files at hand), on
a type `τ` of octosql types. -/
class OctosqlType (τ : Type) where
  Is : τ → τ → TypeRelation

/-- The kinds `physical.TableValuedFunctionArgumentType`. -/
inductive TableValuedFunctionArgumentType where
  | Expression : TableValuedFunctionArgumentType
  | Table : TableValuedFunctionArgumentType
  | Descriptor : TableValuedFunctionArgumentType
  deriving DecidableEq

/-- A `physical.TableValuedFunctionArgument` as the three `Typecheck` methods
of the argument values build it: an expression with its type, a table, or a
descriptor with its name. -/
inductive TableValuedFunctionArgument (τ : Type) where
  | Expression (type : τ) : TableValuedFunctionArgument τ
  | Table : TableValuedFunctionArgument τ
  | Descriptor (descriptor : String) : TableValuedFunctionArgument τ
  deriving DecidableEq

/-- The field `TableValuedFunctionArgumentType` of an argument. -/
def TableValuedFunctionArgument.TableValuedFunctionArgumentType {τ : Type} :
    TableValuedFunctionArgument τ → Logical.TableValuedFunctionArgumentType
  | .Expression _ => .Expression
  | .Table => .Table
  | .Descriptor _ => .Descriptor

/-- The struct `TableValuedFunctionArgumentMatcherExpression`; its field
`Type` is written `Type_`. -/
structure TableValuedFunctionArgumentMatcherExpression (τ : Type) where
  Type_ : τ
  deriving DecidableEq

/-- The struct `TableValuedFunctionArgumentMatcher`. Of the three pointers
only `Expression` is read by `Typecheck`; nil is `none`. -/
structure TableValuedFunctionArgumentMatcher (τ : Type) where
  Required : Bool
  TableValuedFunctionArgumentMatcherType : TableValuedFunctionArgumentType
  Expression : Option (TableValuedFunctionArgumentMatcherExpression τ)
  deriving DecidableEq

/-- The struct `TableValuedFunctionDescriptor`, over the types `Sch` of
schemas and `Mat` of materializers; `OutputSchema` returns the schema with the
output mapping, or an error. -/
structure TableValuedFunctionDescriptor (τ Sch Mat : Type) where
  Arguments : GoMap (TableValuedFunctionArgumentMatcher τ)
  OutputSchema : GoMap (TableValuedFunctionArgument τ) →
    Except String (Sch × GoMap String)
  Materialize : Mat

/-- What a call of `TableValuedFunction.Typecheck` ends with: the returned
node (of type `NodeTypeTableValuedFunction`) with the output mapping, or one of
its panics. -/
inductive TypecheckResult (τ Sch Mat : Type) where
  | node (Schema : Sch) (Name : String) (Arguments : GoMap (TableValuedFunctionArgument τ))
      (Materialize : Mat) (outputMapping : GoMap String) : TypecheckResult τ Sch Mat
  | panicError (err : String) : TypecheckResult τ Sch Mat
  | panicNilPointer : TypecheckResult τ Sch Mat
  | panicUnknown (name : String) (arguments : GoMap (TableValuedFunctionArgument τ)) :
      TypecheckResult τ Sch Mat
  deriving DecidableEq

/-- How the check of one descriptor ends. -/
inductive CheckResult where
  | passed : CheckResult
  | skipped : CheckResult
  | panicked : CheckResult
  deriving DecidableEq

/-- How a descriptor loop ends: with the descriptor whose checks passed, with
a panic, or at the end of the list. -/
inductive LoopResult (δ : Type) where
  | matched (descriptor : δ) : LoopResult δ
  | panicked : LoopResult δ
  | exhausted : LoopResult δ

section Typecheck

variable {τ Sch Mat : Type} [OctosqlType τ]

/-- The first inner loop, over `descriptor.Arguments`: false when a required
argument is not among the supplied ones (`continue descriptorLoop`). -/
def requiredLoop (arguments : GoMap (TableValuedFunctionArgument τ)) :
    GoMap (TableValuedFunctionArgumentMatcher τ) → Bool
  | [] => true
  | (name, arg) :: rest =>
    if arg.Required = true ∧ (arguments.get name).isNone = true then false
    else requiredLoop arguments rest

/-- The second inner loop, over the supplied arguments, with the least type
relation `level` an expression argument must reach: an undeclared name, another
kind than the matcher or a type relation below `level` skips the descriptor; a
nil `matcher.Expression` is a panic. -/
def argumentLoop (level : TypeRelation)
    (matchers : GoMap (TableValuedFunctionArgumentMatcher τ)) :
    GoMap (TableValuedFunctionArgument τ) → CheckResult
  | [] => .passed
  | (name, arg) :: rest =>
    match matchers.get name with
    | none => .skipped
    | some matcher =>
      if arg.TableValuedFunctionArgumentType ≠ matcher.TableValuedFunctionArgumentMatcherType
      then .skipped
      else
        match arg with
        | .Expression type =>
          match matcher.Expression with
          | none => .panicked
          | some expression =>
            if OctosqlType.Is type expression.Type_ < level then .skipped
            else argumentLoop level matchers rest
        | .Table => argumentLoop level matchers rest
        | .Descriptor _ => argumentLoop level matchers rest

/-- One of the two descriptor loops: the first descriptor, in list order, that
passes both inner loops. -/
def descriptorLoop (level : TypeRelation) (arguments : GoMap (TableValuedFunctionArgument τ)) :
    List (TableValuedFunctionDescriptor τ Sch Mat) →
      LoopResult (TableValuedFunctionDescriptor τ Sch Mat)
  | [] => .exhausted
  | descriptor :: rest =>
    if requiredLoop arguments descriptor.Arguments = false then
      descriptorLoop level arguments rest
    else
      match argumentLoop level descriptor.Arguments arguments with
      | .skipped => descriptorLoop level arguments rest
      | .panicked => .panicked
      | .passed => .matched descriptor

/-- The end of the body of both descriptor loops: `OutputSchema` is called, its
error is a panic, otherwise the node is returned. -/
def buildNode (name : String) (arguments : GoMap (TableValuedFunctionArgument τ))
    (descriptor : TableValuedFunctionDescriptor τ Sch Mat) : TypecheckResult τ Sch Mat :=
  match descriptor.OutputSchema arguments with
  | .error err => .panicError err
  | .ok (outSchema, outputMapping) =>
    .node outSchema name arguments descriptor.Materialize outputMapping

/-- Method `Typecheck(ctx, env, logicalEnv)` of `TableValuedFunction`, on the
typechecked arguments: `tableValuedFunctions` is the registry
`logicalEnv.TableValuedFunctions`. -/
def Typecheck (tableValuedFunctions : String → List (TableValuedFunctionDescriptor τ Sch Mat))
    (name : String) (arguments : GoMap (TableValuedFunctionArgument τ)) :
    TypecheckResult τ Sch Mat :=
  let descriptors := tableValuedFunctions name
  match descriptorLoop TypeRelationIs arguments descriptors with
  | .matched descriptor => buildNode name arguments descriptor
  | .panicked => .panicNilPointer
  | .exhausted =>
    match descriptorLoop TypeRelationMaybe arguments descriptors with
    | .matched descriptor => buildNode name arguments descriptor
    | .panicked => .panicNilPointer
    | .exhausted => .panicUnknown name arguments

/-- A supplied argument fits the matcher found under its name at the level
`level`: the name is declared, the kinds are equal and an expression reaches
the type relation `level`. -/
def argumentFits (level : TypeRelation) :
    Option (TableValuedFunctionArgumentMatcher τ) → TableValuedFunctionArgument τ → Bool
  | none, _ => false
  | some matcher, arg =>
    decide (arg.TableValuedFunctionArgumentType = matcher.TableValuedFunctionArgumentMatcherType) &&
      match arg, matcher.Expression with
      | .Expression type, some expression => decide (level ≤ OctosqlType.Is type expression.Type_)
      | .Expression _, none => false
      | _, _ => true

/-- A descriptor matches the supplied arguments at the level `level`: every
required argument is supplied and every supplied argument fits its matcher. -/
def MatchesAt (level : TypeRelation) (arguments : GoMap (TableValuedFunctionArgument τ))
    (descriptor : TableValuedFunctionDescriptor τ Sch Mat) : Prop :=
  (∀ e ∈ descriptor.Arguments, e.2.Required = true → (arguments.get e.1).isSome = true) ∧
  ∀ a ∈ arguments, argumentFits level (descriptor.Arguments.get a.1) a.2 = true

/-- Whether a descriptor matches can be computed. -/
instance MatchesAt.decidable (level : TypeRelation)
    (arguments : GoMap (TableValuedFunctionArgument τ))
    (descriptor : TableValuedFunctionDescriptor τ Sch Mat) :
    Decidable (MatchesAt level arguments descriptor) := by
  unfold MatchesAt
  infer_instance

/-- A descriptor is well formed: a matcher of kind expression has its
`Expression` set. -/
def WellFormed (descriptor : TableValuedFunctionDescriptor τ Sch Mat) : Prop :=
  ∀ e ∈ descriptor.Arguments,
    e.2.TableValuedFunctionArgumentMatcherType = .Expression → e.2.Expression.isSome = true

/-- Whether a descriptor is well formed can be computed. -/
instance WellFormed.decidable (descriptor : TableValuedFunctionDescriptor τ Sch Mat) :
    Decidable (WellFormed descriptor) := by
  unfold WellFormed
  infer_instance

/-- Two descriptors that differ only in the order of the entries of
`Arguments`, with an `OutputSchema` that does not look at the order of the
supplied arguments. -/
def SameUpToOrder (d1 d2 : TableValuedFunctionDescriptor τ Sch Mat) : Prop :=
  d1.Arguments.Perm d2.Arguments ∧ d1.Materialize = d2.Materialize ∧
    ∀ a1 a2 : GoMap (TableValuedFunctionArgument τ), a1.Perm a2 →
      d1.OutputSchema a1 = d2.OutputSchema a2

/-- Two results that differ only in the order of the entries of the recorded
arguments. -/
def TypecheckResult.SameUpToOrder : TypecheckResult τ Sch Mat → TypecheckResult τ Sch Mat → Prop
  | .node s1 n1 a1 m1 o1, .node s2 n2 a2 m2 o2 =>
    s1 = s2 ∧ n1 = n2 ∧ a1.Perm a2 ∧ m1 = m2 ∧ o1 = o2
  | .panicError e1, .panicError e2 => e1 = e2
  | .panicNilPointer, .panicNilPointer => True
  | .panicUnknown n1 a1, .panicUnknown n2 a2 => n1 = n2 ∧ a1.Perm a2
  | _, _ => False

end Typecheck

/-- Types of the scenario: the numbers; a type is itself, and the type 0 may
be any type. -/
instance scenarioTypes : OctosqlType Nat where
  Is a b := if a = b then TypeRelationIs else if a = 0 then TypeRelationMaybe else TypeRelationIsnt

/-- Descriptor of the scenario with one required expression argument `x` of
the given type; its schema is the given number. -/
def scenarioDescriptor (type schema : Nat) : TableValuedFunctionDescriptor Nat Nat Nat where
  Arguments := [("x", { Required := true, TableValuedFunctionArgumentMatcherType := .Expression,
                        Expression := some { Type_ := type } })]
  OutputSchema := fun _ => .ok (schema, [])
  Materialize := schema

/-- Registry of the scenario: under `f`, an overload for the type 1 and then
one for the type 0. -/
def scenarioRegistry (name : String) : List (TableValuedFunctionDescriptor Nat Nat Nat) :=
  if name = "f" then [scenarioDescriptor 1 10, scenarioDescriptor 0 20] else []

end Logical

/-! ## Facts about the key order and the ordered container -/

theorem GroupKey.less_iff_lt (a b : GroupKey) : GroupKey.Less a b = true ↔ a < b := by
  induction a generalizing b with
  | nil =>
    cases b with
    | nil => simp [GroupKey.Less]
    | cons y ys =>
      simp only [GroupKey.Less, true_iff]
      exact List.Lex.nil
  | cons x xs ih =>
    cases b with
    | nil =>
      simp only [GroupKey.Less, Bool.false_eq_true, false_iff]
      intro h
      cases h
    | cons y ys =>
      simp only [GroupKey.Less]
      by_cases hxy : x < y
      · simp only [hxy, if_true, true_iff]
        exact List.Lex.rel hxy
      · by_cases hyx : y < x
        · simp only [hxy, hyx, if_false, if_true, Bool.false_eq_true, false_iff]
          intro h
          cases h with
          | rel h1 => exact hxy h1
          | cons _ => exact lt_irrefl x hyx
        · simp only [hxy, hyx, if_false, ih]
          have hxe : x = y := le_antisymm (not_lt.mp hyx) (not_lt.mp hxy)
          subst hxe
          constructor
          · intro h
            exact List.Lex.cons h
          · intro h
            cases h with
            | rel h1 => exact absurd h1 hxy
            | cons h3 => exact h3

theorem GroupKey.less_irrefl (a : GroupKey) : GroupKey.Less a a = false := by
  have h := GroupKey.less_iff_lt a a
  cases hl : GroupKey.Less a a with
  | false => rfl
  | true => exact absurd (h.mp hl) (lt_irrefl a)

theorem GroupKey.less_trans {a b c : GroupKey} (h1 : GroupKey.Less a b = true)
    (h2 : GroupKey.Less b c = true) : GroupKey.Less a c = true :=
  (GroupKey.less_iff_lt a c).mpr
    (lt_trans ((GroupKey.less_iff_lt a b).mp h1) ((GroupKey.less_iff_lt b c).mp h2))

theorem GroupKey.less_asymm {a b : GroupKey} (h1 : GroupKey.Less a b = true) :
    GroupKey.Less b a = false := by
  cases hl : GroupKey.Less b a with
  | false => rfl
  | true =>
    exact absurd ((GroupKey.less_iff_lt b a).mp hl) (lt_asymm ((GroupKey.less_iff_lt a b).mp h1))

theorem BTree.same_iff_eq (a b : GroupKey) : BTree.same a b = true ↔ a = b := by
  unfold BTree.same
  constructor
  · intro h
    simp only [Bool.and_eq_true, Bool.not_eq_true', ← Bool.not_eq_true,
      GroupKey.less_iff_lt] at h
    exact le_antisymm (not_lt.mp h.2) (not_lt.mp h.1)
  · intro h
    subst h
    simp [GroupKey.less_irrefl]

theorem BTree.same_self (a : GroupKey) : BTree.same a a = true :=
  (BTree.same_iff_eq a a).mpr rfl

theorem BTree.same_eq_false_of_less {a b : GroupKey} (h : GroupKey.Less a b = true) :
    BTree.same a b = false := by
  simp [BTree.same, h]

theorem BTree.same_eq_false_of_less' {a b : GroupKey} (h : GroupKey.Less b a = true) :
    BTree.same a b = false := by
  simp [BTree.same, h]

theorem BTree.same_eq_false_of_ne {a b : GroupKey} (h : a ≠ b) : BTree.same a b = false := by
  cases hs : BTree.same a b with
  | false => rfl
  | true => exact absurd ((BTree.same_iff_eq a b).mp hs) h

namespace BTree

variable {ι : Type} [BTreeItem ι]

theorem Get_nil (k : GroupKey) : Get ([] : BTree ι) k = none := rfl

theorem Get_cons (x : ι) (xs : BTree ι) (k : GroupKey) :
    Get (x :: xs) k = if k = BTreeItem.groupKey x then some x else Get xs k := by
  unfold Get
  by_cases h : k = BTreeItem.groupKey x
  · simp [List.find?, h, same_self]
  · simp [List.find?, h, same_eq_false_of_ne h]

theorem Get_some {t : BTree ι} {k : GroupKey} {x : ι} (h : Get t k = some x) :
    BTreeItem.groupKey x = k ∧ x ∈ t := by
  induction t with
  | nil => simp [Get_nil] at h
  | cons y ys ih =>
    rw [Get_cons] at h
    by_cases hk : k = BTreeItem.groupKey y
    · rw [if_pos hk] at h
      cases h
      exact ⟨hk.symm, List.mem_cons_self _ _⟩
    · rw [if_neg hk] at h
      exact ⟨(ih h).1, List.mem_cons_of_mem _ (ih h).2⟩

theorem Get_eq_none {t : BTree ι} {k : GroupKey} :
    Get t k = none ↔ ∀ x ∈ t, BTreeItem.groupKey x ≠ k := by
  induction t with
  | nil => simp [Get_nil]
  | cons y ys ih =>
    rw [Get_cons]
    by_cases hk : k = BTreeItem.groupKey y
    · simp [hk]
    · simp only [if_neg hk, ih, List.mem_cons, forall_eq_or_imp]
      constructor
      · intro h
        exact ⟨fun e => hk e.symm, h⟩
      · intro h
        exact h.2

theorem ReplaceOrInsert_cons (item x : ι) (xs : BTree ι) :
    ReplaceOrInsert item (x :: xs) =
      if GroupKey.Less (BTreeItem.groupKey item) (BTreeItem.groupKey x) then item :: x :: xs
      else if GroupKey.Less (BTreeItem.groupKey x) (BTreeItem.groupKey item) then
        x :: ReplaceOrInsert item xs
      else item :: xs := rfl

theorem mem_ReplaceOrInsert {item y : ι} {t : BTree ι} (h : y ∈ ReplaceOrInsert item t) :
    y = item ∨ y ∈ t := by
  induction t with
  | nil =>
    simp only [ReplaceOrInsert, List.mem_singleton] at h
    exact Or.inl h
  | cons x xs ih =>
    rw [ReplaceOrInsert_cons] at h
    split_ifs at h with h1 h2
    · rcases List.mem_cons.mp h with h | h
      · exact Or.inl h
      · exact Or.inr h
    · rcases List.mem_cons.mp h with h | h
      · exact Or.inr (h ▸ List.mem_cons_self _ _)
      · rcases ih h with h | h
        · exact Or.inl h
        · exact Or.inr (List.mem_cons_of_mem _ h)
    · rcases List.mem_cons.mp h with h | h
      · exact Or.inl h
      · exact Or.inr (List.mem_cons_of_mem _ h)

theorem Ordered_ReplaceOrInsert (item : ι) {t : BTree ι} (h : Ordered t) :
    Ordered (ReplaceOrInsert item t) := by
  induction t with
  | nil => simp [ReplaceOrInsert, Ordered]
  | cons x xs ih =>
    have hx := List.pairwise_cons.mp h
    rw [ReplaceOrInsert_cons]
    split_ifs with h1 h2
    · refine List.pairwise_cons.mpr ⟨?_, h⟩
      intro y hy
      rcases List.mem_cons.mp hy with hy | hy
      · rw [hy]; exact h1
      · exact GroupKey.less_trans h1 (hx.1 y hy)
    · refine List.pairwise_cons.mpr ⟨?_, ih hx.2⟩
      intro y hy
      rcases mem_ReplaceOrInsert hy with hy | hy
      · rw [hy]; exact h2
      · exact hx.1 y hy
    · have he : BTreeItem.groupKey item = BTreeItem.groupKey x := by
        apply (same_iff_eq _ _).mp
        simp [same, h1, h2]
      refine List.pairwise_cons.mpr ⟨?_, hx.2⟩
      intro y hy
      rw [he]
      exact hx.1 y hy

theorem Get_ReplaceOrInsert_self (item : ι) (t : BTree ι) :
    Get (ReplaceOrInsert item t) (BTreeItem.groupKey item) = some item := by
  induction t with
  | nil => simp [ReplaceOrInsert, Get_cons]
  | cons x xs ih =>
    rw [ReplaceOrInsert_cons]
    split_ifs with h1 h2
    · simp [Get_cons]
    · rw [Get_cons, if_neg, ih]
      intro he
      rw [he, GroupKey.less_irrefl] at h1
      rw [he, GroupKey.less_irrefl] at h2
      exact Bool.false_ne_true h2
    · simp [Get_cons]

theorem Get_ReplaceOrInsert_of_ne (item : ι) (t : BTree ι) {k : GroupKey}
    (hk : k ≠ BTreeItem.groupKey item) : Get (ReplaceOrInsert item t) k = Get t k := by
  induction t with
  | nil => simp [ReplaceOrInsert, Get_cons, hk, Get_nil]
  | cons x xs ih =>
    rw [ReplaceOrInsert_cons]
    split_ifs with h1 h2
    · rw [Get_cons, if_neg hk]
    · rw [Get_cons, Get_cons, ih]
    · have he : BTreeItem.groupKey item = BTreeItem.groupKey x := by
        apply (same_iff_eq _ _).mp
        simp [same, h1, h2]
      rw [Get_cons, Get_cons, if_neg hk, if_neg (he ▸ hk)]

theorem Delete_cons (k : GroupKey) (x : ι) (xs : BTree ι) :
    Delete k (x :: xs) = if k = BTreeItem.groupKey x then xs else x :: Delete k xs := by
  by_cases h : k = BTreeItem.groupKey x
  · simp [Delete, h, same_self]
  · simp [Delete, h, same_eq_false_of_ne h]

theorem Delete_sublist (k : GroupKey) (t : BTree ι) : List.Sublist (Delete k t) t := by
  induction t with
  | nil => exact List.Sublist.refl _
  | cons x xs ih =>
    rw [Delete_cons]
    split_ifs
    · exact List.sublist_cons_self _ _
    · exact List.Sublist.cons₂ _ ih

theorem mem_Delete {k : GroupKey} {y : ι} {t : BTree ι} (h : y ∈ Delete k t) : y ∈ t :=
  (Delete_sublist k t).subset h

theorem Ordered_Delete (k : GroupKey) {t : BTree ι} (h : Ordered t) : Ordered (Delete k t) :=
  List.Pairwise.sublist (Delete_sublist k t) h

theorem Get_Delete_of_ne (t : BTree ι) {k k1 : GroupKey} (hk : k1 ≠ k) :
    Get (Delete k t) k1 = Get t k1 := by
  induction t with
  | nil => rfl
  | cons x xs ih =>
    rw [Delete_cons]
    split_ifs with h
    · rw [Get_cons, if_neg (h ▸ hk)]
    · rw [Get_cons, Get_cons, ih]

theorem Get_Delete_self {t : BTree ι} (k : GroupKey) (h : Ordered t) :
    Get (Delete k t) k = none := by
  induction t with
  | nil => rfl
  | cons x xs ih =>
    have hx := List.pairwise_cons.mp h
    rw [Delete_cons]
    split_ifs with he
    · apply Get_eq_none.mpr
      intro y hy hyk
      have hl := hx.1 y hy
      rw [hyk, he, GroupKey.less_irrefl] at hl
      exact Bool.false_ne_true hl
    · rw [Get_cons, if_neg he]
      exact ih hx.2

theorem Ordered_keys_nodup {t : BTree ι} (h : Ordered t) :
    (t.map BTreeItem.groupKey).Nodup := by
  unfold Ordered at h
  rw [List.Nodup, List.pairwise_map]
  refine List.Pairwise.imp ?_ h
  intro a b hab he
  rw [he, GroupKey.less_irrefl] at hab
  exact Bool.false_ne_true hab

end BTree

/-! ## Facts about CountingTrigger -/

namespace CountingTrigger

theorem ReplaceOrInsert_twice (a b : countingTriggerItem) (t : BTree countingTriggerItem)
    (h : a.GroupKey = b.GroupKey) :
    BTree.ReplaceOrInsert b (BTree.ReplaceOrInsert a t) = BTree.ReplaceOrInsert b t := by
  have hk : (BTreeItem.groupKey a : GroupKey) = BTreeItem.groupKey b := h
  induction t with
  | nil =>
    simp [BTree.ReplaceOrInsert, hk, GroupKey.less_irrefl]
  | cons x xs ih =>
    rw [BTree.ReplaceOrInsert_cons a, BTree.ReplaceOrInsert_cons b, hk]
    split_ifs with h1 h2
    · rw [BTree.ReplaceOrInsert_cons, hk, GroupKey.less_irrefl]
      simp
    · rw [BTree.ReplaceOrInsert_cons, if_neg h1, if_pos h2, ih]
    · rw [BTree.ReplaceOrInsert_cons, hk, GroupKey.less_irrefl]
      simp

/-- The body of `KeyReceived`, told by the stored count alone. -/
theorem KeyReceived_eq (c : CountingTrigger) (key : GroupKey) :
    c.KeyReceived key =
      if (c.storedCount key + 1) % 2 ^ uintBits = c.triggerAfter then
        { c with
          toTrigger := c.toTrigger ++ [key]
          counts := BTree.Delete key
            (BTree.ReplaceOrInsert
              ({ GroupKey := key, Count := (c.storedCount key + 1) % 2 ^ uintBits } :
                countingTriggerItem) c.counts) }
      else
        { c with
          counts := BTree.ReplaceOrInsert
            ({ GroupKey := key, Count := (c.storedCount key + 1) % 2 ^ uintBits } :
              countingTriggerItem) c.counts } := by
  unfold KeyReceived storedCount
  cases hg : BTree.Get c.counts key with
  | none =>
    simp only []
    rw [ReplaceOrInsert_twice { GroupKey := key, Count := 0 }
      { GroupKey := key, Count := (0 + 1) % 2 ^ uintBits } c.counts rfl]
  | some item =>
    have hk : item.GroupKey = key := (BTree.Get_some hg).1
    simp only [hk]

theorem Poll_snd (c : CountingTrigger) : c.Poll.2 = { c with toTrigger := [] } := by
  unfold Poll
  simp only []
  split
  · split <;> rfl
  · rfl

theorem iterate_collect (l : BTree countingTriggerItem) :
    ∀ (fuel i : Nat) (out : List GroupKey), l.length - i ≤ fuel →
      BTree.iterate (fun (_ : List GroupKey) => l)
        (fun (out : List GroupKey) (item : countingTriggerItem) =>
          some (out ++ [item.GroupKey], true)) fuel i out
        = some (out ++ (l.drop i).map countingTriggerItem.GroupKey) := by
  intro fuel
  induction fuel with
  | zero =>
    intro i out h
    have hi : l.length ≤ i := by omega
    simp [BTree.iterate, List.drop_eq_nil_of_le hi]
  | succ fuel ih =>
    intro i out h
    rw [BTree.iterate]
    by_cases hi : i < l.length
    · rw [List.getElem?_eq_getElem hi]
      simp only []
      rw [ih (i + 1) _ (by omega), List.drop_eq_getElem_cons hi]
      simp only [List.map_cons, List.append_assoc, List.singleton_append]
    · have hle : l.length ≤ i := Nat.le_of_not_lt hi
      rw [List.getElem?_eq_none hle]
      simp [List.drop_eq_nil_of_le hle]

theorem Ascend_collect (l : BTree countingTriggerItem) (out : List GroupKey) :
    BTree.Ascend (fun (_ : List GroupKey) => l)
      (fun (out : List GroupKey) (item : countingTriggerItem) =>
        some (out ++ [item.GroupKey], true)) out
      = some (out ++ l.map countingTriggerItem.GroupKey) := by
  unfold BTree.Ascend
  rw [iterate_collect l l.length 0 out (by omega)]
  simp

theorem Poll_fst (c : CountingTrigger) :
    c.Poll.1 =
      if c.endOfStreamReached then c.toTrigger ++ c.counts.map countingTriggerItem.GroupKey
      else c.toTrigger := by
  unfold Poll
  simp only [Ascend_collect]
  split <;> rfl

end CountingTrigger

namespace CountingTrigger

theorem storedCount_of_tracks {c : CountingTrigger} {cnt : GroupKey → Nat} (h : Tracks c cnt)
    (k : GroupKey) : c.storedCount k = cnt k := by
  unfold CountingTrigger.storedCount
  rw [h.2 k]
  by_cases h0 : cnt k = 0
  · simp [h0]
  · simp [h0]

theorem tracks_fresh (N : Nat) : Tracks (NewCountingTriggerPrototype N) (fun _ => 0) := by
  constructor
  · exact List.Pairwise.nil
  · intro k
    rfl

theorem tracks_step {c : CountingTrigger} {cnt : GroupKey → Nat} {N : Nat}
    (h : Tracks c cnt) (hN : c.triggerAfter = N) (hw : N < 2 ^ uintBits)
    (hc : ∀ k, cnt k < N) (key : GroupKey) :
    (cnt key + 1 = N →
      (c.KeyReceived key).toTrigger = c.toTrigger ++ [key] ∧
      Tracks (c.KeyReceived key) (Function.update cnt key 0)) ∧
    (cnt key + 1 ≠ N →
      (c.KeyReceived key).toTrigger = c.toTrigger ∧
      Tracks (c.KeyReceived key) (Function.update cnt key (cnt key + 1))) ∧
    (c.KeyReceived key).triggerAfter = N ∧
    (c.KeyReceived key).endOfStreamReached = c.endOfStreamReached := by
  have hlt : cnt key + 1 < 2 ^ uintBits := lt_of_le_of_lt (hc key) hw
  have hmod : (c.storedCount key + 1) % 2 ^ uintBits = cnt key + 1 := by
    rw [storedCount_of_tracks h, Nat.mod_eq_of_lt hlt]
  rw [KeyReceived_eq, hmod, hN]
  refine ⟨?_, ?_, ?_, ?_⟩
  · intro he
    rw [if_pos he]
    refine ⟨rfl, ?_, ?_⟩
    · exact BTree.Ordered_Delete _ (BTree.Ordered_ReplaceOrInsert _ h.1)
    · intro k
      by_cases hk : k = key
      · subst hk
        simp only [Function.update_same, if_true]
        exact BTree.Get_Delete_self _ (BTree.Ordered_ReplaceOrInsert _ h.1)
      · simp only [Function.update_noteq hk]
        rw [BTree.Get_Delete_of_ne _ hk, BTree.Get_ReplaceOrInsert_of_ne _ _ hk]
        exact h.2 k
  · intro hne
    rw [if_neg hne]
    refine ⟨rfl, ?_, ?_⟩
    · exact BTree.Ordered_ReplaceOrInsert _ h.1
    · intro k
      by_cases hk : k = key
      · subst hk
        simp only [Function.update_same, Nat.succ_ne_zero, if_false]
        exact BTree.Get_ReplaceOrInsert_self _ _
      · simp only [Function.update_noteq hk]
        rw [BTree.Get_ReplaceOrInsert_of_ne _ _ hk]
        exact h.2 k
  · split <;> rfl
  · split <;> rfl

theorem foldl_KeyReceived_crossings (N : Nat) (hN1 : 1 ≤ N) (hw : N < 2 ^ uintBits)
    (keys : List GroupKey) :
    ∀ (c : CountingTrigger) (cnt : GroupKey → Nat), Tracks c cnt → c.triggerAfter = N →
      (∀ k, cnt k < N) →
      (keys.foldl KeyReceived c).toTrigger = c.toTrigger ++ crossingsFrom N cnt keys ∧
      (keys.foldl KeyReceived c).endOfStreamReached = c.endOfStreamReached := by
  induction keys with
  | nil =>
    intro c cnt _ _ _
    simp [crossingsFrom]
  | cons key ks ih =>
    intro c cnt ht hN hc
    obtain ⟨hfire, hkeep, hN2, heos⟩ := tracks_step ht hN hw hc key
    simp only [List.foldl_cons, crossingsFrom]
    by_cases he : cnt key + 1 = N
    · obtain ⟨htt, htr⟩ := hfire he
      have hc2 : ∀ k, Function.update cnt key 0 k < N := by
        intro k
        by_cases hk : k = key
        · subst hk
          simp only [Function.update_same]
          omega
        · simp only [Function.update_noteq hk]
          exact hc k
      obtain ⟨r1, r2⟩ := ih _ _ htr hN2 hc2
      rw [if_pos he, r1, r2, htt, heos]
      simp
    · obtain ⟨htt, htr⟩ := hkeep he
      have hc2 : ∀ k, Function.update cnt key (cnt key + 1) k < N := by
        intro k
        by_cases hk : k = key
        · subst hk
          simp only [Function.update_same]
          have := hc k
          omega
        · simp only [Function.update_noteq hk]
          exact hc k
      obtain ⟨r1, r2⟩ := ih _ _ htr hN2 hc2
      rw [if_neg he, r1, r2, htt, heos]
      simp

theorem count_crossingsFrom (N : Nat) (hN1 : 1 ≤ N) (k : GroupKey) (keys : List GroupKey) :
    ∀ cnt : GroupKey → Nat, (∀ j, cnt j < N) →
      (crossingsFrom N cnt keys).count k = (cnt k + keys.count k) / N := by
  induction keys with
  | nil =>
    intro cnt hc
    simp [crossingsFrom, Nat.div_eq_of_lt (hc k)]
  | cons key ks ih =>
    intro cnt hc
    simp only [crossingsFrom]
    by_cases he : cnt key + 1 = N
    · have hc2 : ∀ j, Function.update cnt key 0 j < N := by
        intro j
        by_cases hj : j = key
        · subst hj
          simp only [Function.update_same]
          omega
        · simp only [Function.update_noteq hj]
          exact hc j
      rw [if_pos he]
      by_cases hk : key = k
      · subst hk
        rw [List.count_cons_self, List.count_cons_self, ih _ hc2]
        simp only [Function.update_same]
        have : cnt key + (List.count key ks + 1) = N + List.count key ks := by omega
        rw [this, Nat.add_div_left _ (by omega : 0 < N), Nat.zero_add]
      · rw [List.count_cons_of_ne (Ne.symm hk), List.count_cons_of_ne (Ne.symm hk), ih _ hc2,
          Function.update_noteq (Ne.symm hk)]
    · have hc2 : ∀ j, Function.update cnt key (cnt key + 1) j < N := by
        intro j
        by_cases hj : j = key
        · subst hj
          simp only [Function.update_same]
          have := hc j
          omega
        · simp only [Function.update_noteq hj]
          exact hc j
      rw [if_neg he, ih _ hc2]
      by_cases hk : key = k
      · subst hk
        rw [List.count_cons_self]
        simp only [Function.update_same]
        congr 1
        omega
      · rw [List.count_cons_of_ne (Ne.symm hk), Function.update_noteq (Ne.symm hk)]

end CountingTrigger

namespace CountingTrigger

theorem storedCount_cases (c : CountingTrigger) (key : GroupKey) :
    c.storedCount key = 0 ∨ ∃ item ∈ c.counts, item.Count = c.storedCount key := by
  unfold storedCount
  cases hg : BTree.Get c.counts key with
  | none => exact Or.inl rfl
  | some item => exact Or.inr ⟨item, (BTree.Get_some hg).2, rfl⟩

theorem key_ne_of_mem_Delete {t : BTree countingTriggerItem} (h : BTree.Ordered t)
    {k : GroupKey} {y : countingTriggerItem} (hy : y ∈ BTree.Delete k t) : y.GroupKey ≠ k :=
  BTree.Get_eq_none.mp (BTree.Get_Delete_self k h) y hy

theorem countsInv_fresh (N : Nat) : CountsInv N (NewCountingTriggerPrototype N) := by
  refine ⟨rfl, List.Pairwise.nil, ?_⟩
  intro item h
  cases h

theorem countsInv_KeyReceived {N : Nat} (hN1 : 1 ≤ N) (hw : N < 2 ^ uintBits)
    {c : CountingTrigger} (h : CountsInv N c) (key : GroupKey) :
    CountsInv N (c.KeyReceived key) := by
  obtain ⟨hN, hord, hrange⟩ := h
  have hsc : c.storedCount key ≤ N - 1 := by
    rcases storedCount_cases c key with h0 | ⟨item, hm, hi⟩
    · omega
    · rw [← hi]
      exact (hrange item hm).2
  have hmod : (c.storedCount key + 1) % 2 ^ uintBits = c.storedCount key + 1 :=
    Nat.mod_eq_of_lt (by omega)
  rw [KeyReceived_eq, hmod, hN]
  split_ifs with he
  · refine ⟨rfl, BTree.Ordered_Delete _ (BTree.Ordered_ReplaceOrInsert _ hord), ?_⟩
    intro item hm
    have hk := key_ne_of_mem_Delete (BTree.Ordered_ReplaceOrInsert _ hord) hm
    rcases BTree.mem_ReplaceOrInsert (BTree.mem_Delete hm) with h1 | h1
    · rw [h1] at hk
      exact absurd rfl hk
    · exact hrange item h1
  · refine ⟨rfl, BTree.Ordered_ReplaceOrInsert _ hord, ?_⟩
    intro item hm
    rcases BTree.mem_ReplaceOrInsert hm with h1 | h1
    · rw [h1]
      simp only []
      omega
    · exact hrange item h1

theorem countsInv_call {N : Nat} (hN1 : 1 ≤ N) (hw : N < 2 ^ uintBits)
    {c : CountingTrigger} (h : CountsInv N c) (op : TriggerCall) : CountsInv N (c.call op) := by
  cases op with
  | EndOfStreamReached => exact h
  | WatermarkReceived w => exact h
  | KeyReceived k => exact countsInv_KeyReceived hN1 hw h k
  | Poll =>
    simp only [CountingTrigger.call, Poll_snd]
    exact h

theorem countsInv_calls {N : Nat} (hN1 : 1 ≤ N) (hw : N < 2 ^ uintBits) (ops : List TriggerCall) :
    ∀ c : CountingTrigger, CountsInv N c → CountsInv N (c.calls ops) := by
  induction ops with
  | nil => intro c h; exact h
  | cons op rest ih =>
    intro c h
    exact ih _ (countsInv_call hN1 hw h op)

theorem Ordered_KeyReceived {c : CountingTrigger} (h : BTree.Ordered c.counts) (key : GroupKey) :
    BTree.Ordered (c.KeyReceived key).counts := by
  rw [KeyReceived_eq]
  split_ifs
  · exact BTree.Ordered_Delete _ (BTree.Ordered_ReplaceOrInsert _ h)
  · exact BTree.Ordered_ReplaceOrInsert _ h

theorem Ordered_call {c : CountingTrigger} (h : BTree.Ordered c.counts) (op : TriggerCall) :
    BTree.Ordered (c.call op).counts := by
  cases op with
  | EndOfStreamReached => exact h
  | WatermarkReceived w => exact h
  | KeyReceived k => exact Ordered_KeyReceived h k
  | Poll =>
    simp only [CountingTrigger.call, Poll_snd]
    exact h

theorem Ordered_calls (ops : List TriggerCall) :
    ∀ c : CountingTrigger, BTree.Ordered c.counts → BTree.Ordered (c.calls ops).counts := by
  induction ops with
  | nil => intro c h; exact h
  | cons op rest ih =>
    intro c h
    exact ih _ (Ordered_call h op)

theorem Get_call_of_ne (c : CountingTrigger) (k : GroupKey) (op : TriggerCall)
    (hop : op ≠ TriggerCall.KeyReceived k) :
    BTree.Get (c.call op).counts k = BTree.Get c.counts k := by
  cases op with
  | EndOfStreamReached => rfl
  | WatermarkReceived w => rfl
  | KeyReceived k1 =>
    have hk : k ≠ k1 := by
      intro he
      exact hop (by rw [he])
    simp only [CountingTrigger.call]
    rw [KeyReceived_eq]
    split_ifs
    · simp only []
      rw [BTree.Get_Delete_of_ne _ hk, BTree.Get_ReplaceOrInsert_of_ne _ _ hk]
    · simp only []
      rw [BTree.Get_ReplaceOrInsert_of_ne _ _ hk]
  | Poll =>
    simp only [CountingTrigger.call, Poll_snd]

theorem Get_calls_of_ne (k : GroupKey) (ops : List TriggerCall)
    (hops : ∀ op ∈ ops, op ≠ TriggerCall.KeyReceived k) :
    ∀ c : CountingTrigger, BTree.Get (c.calls ops).counts k = BTree.Get c.counts k := by
  induction ops with
  | nil => intro c; rfl
  | cons op rest ih =>
    intro c
    have h1 := ih (fun o ho => hops o (List.mem_cons_of_mem _ ho)) (c.call op)
    have h2 := Get_call_of_ne c k op (hops op (List.mem_cons_self _ _))
    simp only [CountingTrigger.calls, List.foldl_cons] at h1 ⊢
    rw [h1, h2]

/-- With threshold zero nothing is queued while fewer than `2 ^ 64` keys have
been received: every count stays between 1 and the number of receipts. -/
theorem zero_threshold_fold (keys : List GroupKey) :
    ∀ (c : CountingTrigger) (n : Nat), c.triggerAfter = 0 → c.toTrigger = [] →
      (∀ item ∈ c.counts, 1 ≤ item.Count ∧ item.Count ≤ n) →
      n + keys.length < 2 ^ uintBits →
      (keys.foldl KeyReceived c).toTrigger = [] := by
  induction keys with
  | nil => intro c n _ ht _ _; exact ht
  | cons key ks ih =>
    intro c n h0 ht hr hlen
    simp only [List.length_cons] at hlen
    have hsc : c.storedCount key ≤ n := by
      rcases storedCount_cases c key with h | ⟨item, hm, hi⟩
      · omega
      · rw [← hi]
        exact (hr item hm).2
    have hmod : (c.storedCount key + 1) % 2 ^ uintBits = c.storedCount key + 1 :=
      Nat.mod_eq_of_lt (by omega)
    have hstep : c.KeyReceived key =
        { c with
          counts := BTree.ReplaceOrInsert
            ({ GroupKey := key, Count := c.storedCount key + 1 } : countingTriggerItem)
            c.counts } := by
      rw [KeyReceived_eq, hmod, h0, if_neg (Nat.succ_ne_zero _)]
    simp only [List.foldl_cons]
    apply ih (c.KeyReceived key) (n + 1)
    · rw [hstep]; exact h0
    · rw [hstep]; exact ht
    · rw [hstep]
      intro item hm
      rcases BTree.mem_ReplaceOrInsert hm with h1 | h1
      · rw [h1]
        simp only []
        omega
      · have := hr item h1
        omega
    · omega

end CountingTrigger

/-! ## Facts about WatermarkTrigger -/

theorem GroupKey.less_nil_right (a : GroupKey) : GroupKey.Less a [] = false := by
  cases a <;> rfl

namespace WatermarkTrigger

theorem iterate_past_end (iterator : WatermarkTrigger → GroupKey → Option (WatermarkTrigger × Bool))
    (fuel i : Nat) (c : WatermarkTrigger) (h : c.timeKeys.length ≤ i) :
    BTree.iterate WatermarkTrigger.timeKeys iterator fuel i c = some c := by
  cases fuel with
  | zero => rfl
  | succ fuel =>
    rw [BTree.iterate, List.getElem?_eq_none h]

theorem Delete_append_of_not_mem (x : GroupKey) (kept rest : BTree GroupKey) (h : x ∉ kept) :
    BTree.Delete x (kept ++ x :: rest) = kept ++ rest := by
  induction kept with
  | nil =>
    rw [List.nil_append, BTree.Delete_cons]
    exact if_pos rfl
  | cons k ks ih =>
    have hk : ¬ x = BTreeItem.groupKey k := by
      intro e
      have e2 : x = k := e
      exact h (e2 ▸ List.mem_cons_self _ _)
    have hks : x ∉ ks := fun hm => h (List.mem_cons_of_mem _ hm)
    rw [List.cons_append, BTree.Delete_cons, if_neg hk, ih hks]
    rfl

theorem iterate_pollIterator (fuel : Nat) :
    ∀ (kept rest : List GroupKey) (c : WatermarkTrigger), c.timeKeys = kept ++ rest →
      (kept ++ rest).Nodup → (∀ k ∈ rest, k ≠ []) → rest.length ≤ fuel →
      BTree.iterate WatermarkTrigger.timeKeys pollIterator fuel kept.length c =
        some { c with
          outputKeysSlice := c.outputKeysSlice ++ (liveWalk c.watermark rest).1
          timeKeys := kept ++ (liveWalk c.watermark rest).2 } := by
  induction fuel with
  | zero =>
    intro kept rest c hc _ _ hlen
    have hr : rest = [] := List.length_eq_zero.mp (Nat.le_zero.mp hlen)
    subst hr
    obtain ⟨tk, eos, w, out⟩ := c
    simp only at hc
    subst hc
    simp [BTree.iterate, liveWalk]
  | succ fuel ih =>
    intro kept rest c hc hnd hne hlen
    cases rest with
    | nil =>
      rw [iterate_past_end]
      · obtain ⟨tk, eos, w, out⟩ := c
        simp only at hc
        subst hc
        simp [liveWalk]
      · rw [hc]
        simp
    | cons x xs =>
      have hget : c.timeKeys[kept.length]? = some x := by
        rw [hc, List.getElem?_append_right (Nat.le_refl _)]
        simp
      have hx : x ≠ [] := hne x (List.mem_cons_self _ _)
      rw [BTree.iterate, hget]
      match x, hx with
      | v :: r, _ =>
        by_cases hv : v.Time > c.watermark
        · have hp : passes c.watermark (v :: r) = false := by simp [passes, hv]
          have hw : liveWalk c.watermark ((v :: r) :: xs) = ([], (v :: r) :: xs) := by
            cases xs with
            | nil => simp [liveWalk, hp]
            | cons y ys => simp [liveWalk, hp]
          simp only [pollIterator, hv, if_true, hw, List.append_nil]
          obtain ⟨tk, eos, w, out⟩ := c
          simp only at hc
          subst hc
          rfl
        · have hp : passes c.watermark (v :: r) = true := by simp [passes, hv]
          have hnotin : (v :: r) ∉ kept := by
            intro hm
            exact (List.nodup_append.mp hnd).2.2 hm (List.mem_cons_self _ _)
          have hd : BTree.Delete (v :: r) c.timeKeys = kept ++ xs := by
            rw [hc]
            exact Delete_append_of_not_mem (v :: r) kept xs hnotin
          simp only [pollIterator, hv, if_false, hd]
          cases xs with
          | nil =>
            rw [iterate_past_end]
            · simp [liveWalk, hp]
            · simp
          | cons y ys =>
            have hnd2 : ((kept ++ [y]) ++ ys).Nodup := by
              have hsub : List.Sublist ((kept ++ [y]) ++ ys) (kept ++ (v :: r) :: y :: ys) := by
                rw [List.append_assoc]
                exact List.Sublist.append_left (List.sublist_cons_self _ _) kept
              exact List.Nodup.sublist hsub hnd
            have hne2 : ∀ k ∈ ys, k ≠ [] := fun k hk =>
              hne k (List.mem_cons_of_mem _ (List.mem_cons_of_mem _ hk))
            have hlen2 : ys.length ≤ fuel := by
              simp only [List.length_cons] at hlen
              omega
            have hstep := ih (kept ++ [y]) ys
              { c with
                outputKeysSlice := c.outputKeysSlice ++ [v :: r]
                timeKeys := kept ++ y :: ys }
              (by simp) hnd2 hne2 hlen2
            simp only [List.length_append, List.length_singleton] at hstep
            rw [hstep]
            simp [liveWalk, hp]

theorem Ascend_pollIterator_nil (xs : BTree GroupKey) (c : WatermarkTrigger)
    (hc : c.timeKeys = [] :: xs) :
    BTree.Ascend WatermarkTrigger.timeKeys pollIterator c = none := by
  unfold BTree.Ascend
  rw [hc]
  simp only [List.length_cons]
  rw [BTree.iterate, hc]
  simp [pollIterator]

theorem iterate_drainIterator (fuel : Nat) :
    ∀ (i : Nat) (c : WatermarkTrigger), c.timeKeys.length - i ≤ fuel →
      BTree.iterate WatermarkTrigger.timeKeys drainIterator fuel i c =
        some { c with outputKeysSlice := c.outputKeysSlice ++ c.timeKeys.drop i } := by
  induction fuel with
  | zero =>
    intro i c h
    have hi : c.timeKeys.length ≤ i := by omega
    simp [BTree.iterate, List.drop_eq_nil_of_le hi]
  | succ fuel ih =>
    intro i c h
    rw [BTree.iterate]
    by_cases hi : i < c.timeKeys.length
    · rw [List.getElem?_eq_getElem hi]
      simp only [drainIterator]
      rw [ih (i + 1) _ (by simpa using (by omega : c.timeKeys.length - (i + 1) ≤ fuel)),
        List.drop_eq_getElem_cons hi]
      simp only [List.append_assoc, List.singleton_append]
    · have hle : c.timeKeys.length ≤ i := Nat.le_of_not_lt hi
      rw [List.getElem?_eq_none hle]
      simp [List.drop_eq_nil_of_le hle]

theorem Poll_eos (c : WatermarkTrigger) (h : c.endOfStreamReached = true) :
    c.Poll = some (c.timeKeys, { c with outputKeysSlice := c.timeKeys }) := by
  have hw := iterate_drainIterator c.timeKeys.length 0 { c with outputKeysSlice := [] }
    (by simp)
  simp only [List.nil_append, List.drop_zero, h] at hw
  unfold Poll BTree.Ascend
  simp only [h, Bool.not_true, Bool.false_eq_true, if_false, hw]

theorem Poll_running (c : WatermarkTrigger) (h : c.endOfStreamReached = false)
    (hnd : c.timeKeys.Nodup) (hne : ∀ k ∈ c.timeKeys, k ≠ []) :
    c.Poll = some ((liveWalk c.watermark c.timeKeys).1,
      { c with
        outputKeysSlice := (liveWalk c.watermark c.timeKeys).1
        timeKeys := (liveWalk c.watermark c.timeKeys).2 }) := by
  have hw := iterate_pollIterator c.timeKeys.length [] c.timeKeys
    { c with outputKeysSlice := [] } rfl hnd hne (Nat.le_refl _)
  simp only [List.nil_append, List.length_nil] at hw
  unfold Poll BTree.Ascend
  simp only [h, Bool.not_false, if_true] at hw ⊢
  rw [hw]

theorem timeKeys_ordered_KeyReceived {c : WatermarkTrigger} (h : BTree.Ordered c.timeKeys)
    (key : GroupKey) : BTree.Ordered (c.KeyReceived key).timeKeys :=
  BTree.Ordered_ReplaceOrInsert key h

theorem head_nil_of_mem {l : BTree GroupKey} (hord : BTree.Ordered l) (h : [] ∈ l) :
    ∃ xs, l = [] :: xs := by
  cases l with
  | nil => cases h
  | cons x xs =>
    rcases List.mem_cons.mp h with h1 | h1
    · exact ⟨xs, by rw [h1]⟩
    · have := (List.pairwise_cons.mp hord).1 [] h1
      rw [show BTreeItem.groupKey ([] : GroupKey) = ([] : GroupKey) from rfl,
        GroupKey.less_nil_right] at this
      exact absurd this Bool.false_ne_true

theorem Poll_running_nil (c : WatermarkTrigger) (h : c.endOfStreamReached = false)
    (hord : BTree.Ordered c.timeKeys) (hmem : [] ∈ c.timeKeys) : c.Poll = none := by
  obtain ⟨xs, hxs⟩ := head_nil_of_mem hord hmem
  have hw := Ascend_pollIterator_nil xs { c with outputKeysSlice := [] } hxs
  simp only [h] at hw
  unfold Poll
  simp only [h, Bool.not_false, if_true, hw]

theorem liveWalk_fst_sublist (w : Time) (n : Nat) :
    ∀ l : List GroupKey, l.length ≤ n → List.Sublist (liveWalk w l).1 l := by
  induction n with
  | zero =>
    intro l hl
    have : l = [] := List.length_eq_zero.mp (Nat.le_zero.mp hl)
    subst this
    exact List.Sublist.refl _
  | succ n ih =>
    intro l hl
    match l with
    | [] => exact List.Sublist.refl _
    | [x] =>
      simp only [liveWalk]
      split_ifs
      · exact List.Sublist.refl _
      · exact List.nil_sublist _
    | x :: y :: rest =>
      simp only [liveWalk]
      split_ifs
      · have hr : rest.length ≤ n := by
          simp only [List.length_cons] at hl
          omega
        exact List.Sublist.cons₂ x (List.Sublist.cons y (ih rest hr))
      · exact List.nil_sublist _

end WatermarkTrigger

/-! ## Shared results on `Poll` -/

theorem pairwise_less_nodup {l : List GroupKey}
    (h : l.Pairwise (fun a b => GroupKey.Less a b = true)) : l.Nodup := by
  refine List.Pairwise.imp ?_ h
  intro a b hab he
  rw [he, GroupKey.less_irrefl] at hab
  exact Bool.false_ne_true hab

theorem BTree.Get_isSome_iff {ι : Type} [BTreeItem ι] (t : BTree ι) (k : GroupKey) :
    (BTree.Get t k).isSome = true ↔ k ∈ t.map BTreeItem.groupKey := by
  constructor
  · intro h
    obtain ⟨x, hx⟩ := Option.isSome_iff_exists.mp h
    exact List.mem_map.mpr ⟨x, (BTree.Get_some hx).2, (BTree.Get_some hx).1⟩
  · intro h
    obtain ⟨x, hx, hk⟩ := List.mem_map.mp h
    cases hg : BTree.Get t k with
    | none => exact absurd hk (BTree.Get_eq_none.mp hg x hx)
    | some y => rfl

/-! ## The claims -/

/-- C1, evaluated on scenario S2 (receipts `(20,x), (10,y), (15,z)`): with
watermark 14 `Poll` returns `[(10,y)]`; then, with watermark 20, both keys left
in the set are due, yet `Poll` returns `[(15,z)]` alone and leaves `(20,x)` in
the set: the `Delete` inside the iterator moves `(20,x)` into the place the walk
has just read and the walk steps over it. -/
theorem WatermarkTrigger.poll_skips_next_due_key :
    (watermarkScenario.WatermarkReceived 14).Poll =
      some ([keyY10],
        { timeKeys := [keyZ15, keyX20], endOfStreamReached := false, watermark := 14,
          outputKeysSlice := [keyY10] }) ∧
    (WatermarkTrigger.WatermarkReceived
        { timeKeys := [keyZ15, keyX20], endOfStreamReached := false, watermark := 14,
          outputKeysSlice := [keyY10] } 20).Poll =
      some ([keyZ15],
        { timeKeys := [keyX20], endOfStreamReached := false, watermark := 20,
          outputKeysSlice := [keyZ15] }) ∧
    [keyZ15, keyX20].filter (notAfter 20) = [keyZ15, keyX20] := by
  decide

/-- C2: for `N ≥ 1`, after any sequence of receipts on a fresh
`CountingTrigger(N)` the next `Poll` returns the threshold crossings of the
sequence in the order in which they happened: a key occurs in the output once
for every `N` receipts of it, so every key received at least `N` times is
returned. -/
theorem CountingTrigger.poll_returns_threshold_crossings (N : Nat) (keys : List GroupKey)
    (hN1 : 1 ≤ N) (hw : N < 2 ^ uintBits) :
    ((keys.foldl CountingTrigger.KeyReceived (NewCountingTriggerPrototype N)).Poll).1 =
      thresholdCrossings N keys ∧
    (∀ k, (((keys.foldl CountingTrigger.KeyReceived (NewCountingTriggerPrototype N)).Poll).1).count k
      = keys.count k / N) ∧
    (∀ k, N ≤ keys.count k →
      k ∈ ((keys.foldl CountingTrigger.KeyReceived (NewCountingTriggerPrototype N)).Poll).1) := by
  have hzero : ∀ k : GroupKey, (fun _ : GroupKey => 0) k < N := fun _ => hN1
  obtain ⟨h1, h2⟩ := CountingTrigger.foldl_KeyReceived_crossings N hN1 hw keys
    (NewCountingTriggerPrototype N) (fun _ => 0) (CountingTrigger.tracks_fresh N) rfl hzero
  have hout : ((keys.foldl CountingTrigger.KeyReceived (NewCountingTriggerPrototype N)).Poll).1 =
      thresholdCrossings N keys := by
    rw [CountingTrigger.Poll_fst, h2, h1]
    simp [NewCountingTriggerPrototype, thresholdCrossings]
  have hcount : ∀ k, (thresholdCrossings N keys).count k = keys.count k / N := by
    intro k
    have := CountingTrigger.count_crossingsFrom N hN1 k keys (fun _ => 0) hzero
    simpa [thresholdCrossings] using this
  refine ⟨hout, ?_, ?_⟩
  · intro k
    rw [hout]
    exact hcount k
  · intro k hk
    rw [hout]
    apply List.count_pos_iff.mp
    rw [hcount k]
    exact Nat.div_pos hk hN1

/-- Scenario S1 for C2: `CountingTrigger(3)` receiving `A, B, A, A, B, B`
polls `[A, B]`. -/
theorem CountingTrigger.poll_counting_scenario :
    (([keyA, keyB, keyA, keyA, keyB, keyB].foldl CountingTrigger.KeyReceived
      (NewCountingTriggerPrototype 3)).Poll).1 = [keyA, keyB] :=
  (CountingTrigger.poll_returns_threshold_crossings 3 [keyA, keyB, keyA, keyA, keyB, keyB]
    (by decide) (by decide)).1.trans (by decide)

/-- C3: after end of stream `Poll` returns the buffered keys in their order
followed by the keys of the counts tree in ascending key order; these are
exactly the keys that have a count entry. -/
theorem CountingTrigger.poll_flushes_counts_at_end_of_stream (c : CountingTrigger)
    (heos : c.endOfStreamReached = true) (hord : BTree.Ordered c.counts) :
    c.Poll.1 = c.toTrigger ++ c.counts.map countingTriggerItem.GroupKey ∧
    (c.counts.map countingTriggerItem.GroupKey).Pairwise
      (fun a b => GroupKey.Less a b = true) ∧
    (∀ k, k ∈ c.counts.map countingTriggerItem.GroupKey ↔
      (BTree.Get c.counts k).isSome = true) := by
  refine ⟨?_, ?_, ?_⟩
  · rw [CountingTrigger.Poll_fst, if_pos heos]
  · exact List.pairwise_map.mpr hord
  · intro k
    exact (BTree.Get_isSome_iff c.counts k).symm

/-- Scenario S4 for C3: `CountingTrigger(5)` receiving `A, A, B` and then end
of stream polls `[A, B]`. -/
theorem CountingTrigger.poll_flush_scenario : flushScenario.Poll.1 = [keyA, keyB] :=
  (CountingTrigger.poll_flushes_counts_at_end_of_stream flushScenario
    (by decide) (by decide)).1.trans (by decide)

/-- C4, evaluated on scenario S4 (`CountingTrigger(5)`, receipts `A, A, B`, end
of stream): the first `Poll` returns `[A, B]` and empties `toTrigger`, but the
counts tree still holds both items, and a second `Poll` with no receipt in
between returns `[A, B]` again. -/
theorem CountingTrigger.second_poll_repeats_flush :
    flushScenario.Poll.1 = [keyA, keyB] ∧
    flushScenario.Poll.2.toTrigger = [] ∧
    flushScenario.Poll.2.counts =
      [{ GroupKey := keyA, Count := 2 }, { GroupKey := keyB, Count := 1 }] ∧
    flushScenario.Poll.2.Poll.1 = [keyA, keyB] := by
  decide

/-- C5, evaluated on the watermark scenario after end of stream: the first
`Poll` returns all three keys in ascending order, the set still holds them
afterwards, and a second `Poll` with no receipt in between returns them
again. -/
theorem WatermarkTrigger.second_poll_repeats_drain :
    watermarkScenario.EndOfStreamReached.Poll =
      some ([keyY10, keyZ15, keyX20],
        { timeKeys := [keyY10, keyZ15, keyX20], endOfStreamReached := true,
          watermark := zeroTime, outputKeysSlice := [keyY10, keyZ15, keyX20] }) ∧
    (WatermarkTrigger.Poll
        { timeKeys := [keyY10, keyZ15, keyX20], endOfStreamReached := true,
          watermark := zeroTime, outputKeysSlice := [keyY10, keyZ15, keyX20] }).map Prod.fst =
      some [keyY10, keyZ15, keyX20] := by
  decide

/-- C6 fails as stated: with `t0 = 0 < t1 = 1`, `WatermarkReceived(1)` followed
by `WatermarkReceived(0)` leaves another state than `WatermarkReceived(1)`
alone, and the next `Poll` differs: the key of time 1 is returned after the
single call and is not returned after the pair. -/
theorem WatermarkTrigger.watermark_decrease_not_clamped :
    ((NewWatermarkTriggerPrototype.KeyReceived [Value.time 1]).WatermarkReceived 1).WatermarkReceived 0
      ≠ (NewWatermarkTriggerPrototype.KeyReceived [Value.time 1]).WatermarkReceived 1 ∧
    ((NewWatermarkTriggerPrototype.KeyReceived [Value.time 1]).WatermarkReceived 1).Poll.map
      Prod.fst = some [[Value.time 1]] ∧
    (((NewWatermarkTriggerPrototype.KeyReceived [Value.time 1]).WatermarkReceived
      1).WatermarkReceived 0).Poll.map Prod.fst = some [] := by
  decide

/-- C6 as amended: `WatermarkReceived` stores its argument whatever the
previous watermark: for all instants `t0`, `t1` (also `t0 < t1`),
`WatermarkReceived(t1)` followed by `WatermarkReceived(t0)` leaves the trigger
in the same state as `WatermarkReceived(t0)` alone, with watermark `t0`, so
every later `Poll` returns the same keys as if the first call had not
occurred. -/
theorem WatermarkTrigger.watermark_last_write_wins (c : WatermarkTrigger) (t1 t0 : Time) :
    (c.WatermarkReceived t1).WatermarkReceived t0 = c.WatermarkReceived t0 ∧
    ((c.WatermarkReceived t1).WatermarkReceived t0).watermark = t0 ∧
    ((c.WatermarkReceived t1).WatermarkReceived t0).Poll = (c.WatermarkReceived t0).Poll :=
  ⟨rfl, rfl, rfl⟩

/-- C7 fails as stated: `NewCountingTriggerPrototype(0)` yields a trigger, which
works: it takes a receipt of `A` and, after end of stream, polls `[A]`. -/
theorem CountingTrigger.zero_threshold_is_accepted :
    NewCountingTriggerPrototype 0 =
      { triggerAfter := 0, counts := [], endOfStreamReached := false, toTrigger := [] } ∧
    (((NewCountingTriggerPrototype 0).KeyReceived keyA).EndOfStreamReached).Poll.1 = [keyA] := by
  decide

/-- C7 as amended: `NewCountingTriggerPrototype(N)` checks nothing and yields
for every `N`, also `N = 0`, a fresh trigger with threshold `N`; on the trigger
built with `N = 0` no receipt queues a key as long as fewer than `2 ^ 64` keys
have been received, so before end of stream `Poll` returns nothing. -/
theorem CountingTrigger.zero_threshold_never_queues (keys : List GroupKey)
    (hlen : keys.length < 2 ^ uintBits) :
    (∀ N, NewCountingTriggerPrototype N =
      { triggerAfter := N, counts := [], endOfStreamReached := false, toTrigger := [] }) ∧
    (keys.foldl CountingTrigger.KeyReceived (NewCountingTriggerPrototype 0)).toTrigger = [] ∧
    ((keys.foldl CountingTrigger.KeyReceived (NewCountingTriggerPrototype 0)).Poll).1 = [] := by
  have hfold := CountingTrigger.zero_threshold_fold keys (NewCountingTriggerPrototype 0) 0 rfl rfl
    (by intro item h; cases h) (by omega)
  have heos : ∀ (l : List GroupKey) (c : CountingTrigger),
      (l.foldl CountingTrigger.KeyReceived c).endOfStreamReached = c.endOfStreamReached := by
    intro l
    induction l with
    | nil => intro c; rfl
    | cons k ks ih =>
      intro c
      rw [List.foldl_cons, ih, CountingTrigger.KeyReceived_eq]
      split <;> rfl
  refine ⟨fun _ => rfl, hfold, ?_⟩
  rw [CountingTrigger.Poll_fst, heos, hfold]
  rfl

/-- Instance of the amended C7: three receipts of `A` on the trigger built
with `N = 0` queue nothing. -/
theorem CountingTrigger.zero_threshold_scenario :
    ([keyA, keyA, keyA].foldl CountingTrigger.KeyReceived
      (NewCountingTriggerPrototype 0)).toTrigger = [] :=
  (CountingTrigger.zero_threshold_never_queues [keyA, keyA, keyA] (by decide)).2.1

/-- C8 fails as stated: on `CountingTrigger(2)` the receipts `A, A, A` leave `A`
both in `toTrigger` and in the counts tree. -/
theorem CountingTrigger.key_queued_and_counted :
    keyA ∈ ((NewCountingTriggerPrototype 2).calls
      [.KeyReceived keyA, .KeyReceived keyA, .KeyReceived keyA]).toTrigger ∧
    BTree.Get ((NewCountingTriggerPrototype 2).calls
      [.KeyReceived keyA, .KeyReceived keyA, .KeyReceived keyA]).counts keyA =
      some { GroupKey := keyA, Count := 1 } := by
  decide

/-- C8 as amended: after any sequence of calls on a fresh `CountingTrigger(N)`,
a `KeyReceived(k)` that queues `k` in `toTrigger` leaves `k` without a count
entry, and `k` stays without one through every further call that is not a
`KeyReceived(k)`. -/
theorem CountingTrigger.queued_key_has_no_count_until_received_again (N : Nat)
    (ops more : List TriggerCall) (k : GroupKey)
    (hqueued : (((NewCountingTriggerPrototype N).calls ops).KeyReceived k).toTrigger =
      ((NewCountingTriggerPrototype N).calls ops).toTrigger ++ [k])
    (hmore : ∀ op ∈ more, op ≠ TriggerCall.KeyReceived k) :
    BTree.Get ((((NewCountingTriggerPrototype N).calls ops).KeyReceived k).calls more).counts k
      = none := by
  have hord : BTree.Ordered ((NewCountingTriggerPrototype N).calls ops).counts :=
    CountingTrigger.Ordered_calls ops _ List.Pairwise.nil
  rw [CountingTrigger.Get_calls_of_ne k more hmore]
  rw [CountingTrigger.KeyReceived_eq] at hqueued ⊢
  split_ifs at hqueued ⊢ with hfire
  · exact BTree.Get_Delete_self _ (BTree.Ordered_ReplaceOrInsert _ hord)
  · simp at hqueued

/-- Instance of the amended C8: on `CountingTrigger(2)`, after the receipts
`A, A` the key `A` is queued and has no count entry, also after a receipt of
`B` and a `Poll`. -/
theorem CountingTrigger.queued_key_scenario :
    BTree.Get (((((NewCountingTriggerPrototype 2).calls [.KeyReceived keyA]).KeyReceived
      keyA).calls [.KeyReceived keyB, .Poll]).counts) keyA = none :=
  CountingTrigger.queued_key_has_no_count_until_received_again 2 [.KeyReceived keyA]
    [.KeyReceived keyB, .Poll] keyA (by decide) (by decide)

/-- C9: for `N ≥ 1`, after every sequence of calls on a fresh
`CountingTrigger(N)` every item of the counts tree has a count between 1 and
`N - 1`, the tree holds at most one item per key, and for `N = 1` it is
empty. -/
theorem CountingTrigger.counts_stay_below_threshold (N : Nat) (ops : List TriggerCall)
    (hN1 : 1 ≤ N) (hw : N < 2 ^ uintBits) :
    (∀ item ∈ ((NewCountingTriggerPrototype N).calls ops).counts,
      1 ≤ item.Count ∧ item.Count ≤ N - 1) ∧
    (((NewCountingTriggerPrototype N).calls ops).counts.map
      countingTriggerItem.GroupKey).Nodup ∧
    (N = 1 → ((NewCountingTriggerPrototype N).calls ops).counts = []) := by
  obtain ⟨_, hord, hrange⟩ :=
    CountingTrigger.countsInv_calls hN1 hw ops _ (CountingTrigger.countsInv_fresh N)
  refine ⟨hrange, BTree.Ordered_keys_nodup hord, ?_⟩
  intro h1
  apply List.eq_nil_iff_forall_not_mem.mpr
  intro item hm
  have := hrange item hm
  omega

/-- Instance of C9: on `CountingTrigger(3)` the calls `A, A, B, Poll, A, B`
leave only the item of `B`, with count 2. -/
theorem CountingTrigger.counts_scenario :
    ((NewCountingTriggerPrototype 3).calls
      [.KeyReceived keyA, .KeyReceived keyA, .KeyReceived keyB, .Poll, .KeyReceived keyA,
        .KeyReceived keyB]).counts = [{ GroupKey := keyB, Count := 2 }] ∧
    (∀ item ∈ ((NewCountingTriggerPrototype 3).calls
      [.KeyReceived keyA, .KeyReceived keyA, .KeyReceived keyB, .Poll, .KeyReceived keyA,
        .KeyReceived keyB]).counts, 1 ≤ item.Count ∧ item.Count ≤ 3 - 1) :=
  ⟨by decide,
    (CountingTrigger.counts_stay_below_threshold 3
      [.KeyReceived keyA, .KeyReceived keyA, .KeyReceived keyB, .Poll, .KeyReceived keyA,
        .KeyReceived keyB] (by decide) (by decide)).1⟩

/-- C10: on an ordered set, with or without end of stream, the slice `Poll`
returns is strictly ascending in key order (any earlier element is less than
any later one) and so holds no key twice; `Poll` returns a slice unless the
stream has not ended and the set holds the empty key. -/
theorem WatermarkTrigger.poll_output_strictly_ascending (c : WatermarkTrigger)
    (hord : BTree.Ordered c.timeKeys) :
    (∀ out c1, c.Poll = some (out, c1) →
      out.Pairwise (fun a b => GroupKey.Less a b = true) ∧ out.Nodup) ∧
    ((c.Poll).isSome = true ↔ (c.endOfStreamReached = true ∨ [] ∉ c.timeKeys)) := by
  cases heos : c.endOfStreamReached with
  | true =>
    rw [WatermarkTrigger.Poll_eos c heos]
    refine ⟨?_, by simp⟩
    intro out c1 h
    simp only [Option.some.injEq, Prod.mk.injEq] at h
    rw [← h.1]
    exact ⟨hord, pairwise_less_nodup hord⟩
  | false =>
    by_cases hmem : [] ∈ c.timeKeys
    · rw [WatermarkTrigger.Poll_running_nil c heos hord hmem]
      refine ⟨?_, by simp [hmem]⟩
      intro out c1 h
      cases h
    · have hne : ∀ k ∈ c.timeKeys, k ≠ [] := by
        intro k hk he
        exact hmem (he ▸ hk)
      rw [WatermarkTrigger.Poll_running c heos (pairwise_less_nodup hord) hne]
      refine ⟨?_, by simp [hmem]⟩
      intro out c1 h
      simp only [Option.some.injEq, Prod.mk.injEq] at h
      have hs : out.Pairwise (fun a b => GroupKey.Less a b = true) := by
        rw [← h.1]
        exact List.Pairwise.sublist
          (WatermarkTrigger.liveWalk_fst_sublist c.watermark _ _ (Nat.le_refl _)) hord
      exact ⟨hs, pairwise_less_nodup hs⟩

/-- Instance of C10: the watermark scenario with watermark 20 polls
`[(10,y), (20,x)]`, which is strictly ascending. -/
theorem WatermarkTrigger.poll_ascending_scenario :
    (watermarkScenario.WatermarkReceived 20).Poll.map Prod.fst = some [keyY10, keyX20] ∧
    ∀ out c1, (watermarkScenario.WatermarkReceived 20).Poll = some (out, c1) →
      out.Pairwise (fun a b => GroupKey.Less a b = true) ∧ out.Nodup :=
  ⟨by decide,
    (WatermarkTrigger.poll_output_strictly_ascending
      (watermarkScenario.WatermarkReceived 20) (by decide)).1⟩

/-! ## WatermarkTrigger: receipts -/

theorem BTree.ReplaceOrInsert_same_key {ι : Type} [BTreeItem ι] (a b : ι) (t : BTree ι)
    (hk : BTreeItem.groupKey a = BTreeItem.groupKey b) :
    BTree.ReplaceOrInsert b (BTree.ReplaceOrInsert a t) = BTree.ReplaceOrInsert b t := by
  induction t with
  | nil =>
    simp [BTree.ReplaceOrInsert, hk, GroupKey.less_irrefl]
  | cons x xs ih =>
    rw [BTree.ReplaceOrInsert_cons a, BTree.ReplaceOrInsert_cons b, hk]
    split_ifs with h1 h2
    · rw [BTree.ReplaceOrInsert_cons, hk, GroupKey.less_irrefl]
      simp
    · rw [BTree.ReplaceOrInsert_cons, if_neg h1, if_pos h2, ih]
    · rw [BTree.ReplaceOrInsert_cons, hk, GroupKey.less_irrefl]
      simp

/-- C11: `KeyReceived(k)` applied twice leaves the same trigger (ordered set,
watermark, flag and output slice) as applied once, and on an ordered set the
key is then in the set exactly once. -/
theorem WatermarkTrigger.keyReceived_idempotent (c : WatermarkTrigger) (k : GroupKey) :
    (c.KeyReceived k).KeyReceived k = c.KeyReceived k ∧
    (BTree.Ordered c.timeKeys →
      BTree.Ordered (c.KeyReceived k).timeKeys ∧ k ∈ (c.KeyReceived k).timeKeys ∧
        (c.KeyReceived k).timeKeys.Nodup) := by
  constructor
  · unfold WatermarkTrigger.KeyReceived
    simp only [BTree.ReplaceOrInsert_same_key k k c.timeKeys rfl]
  · intro hord
    have hord2 : BTree.Ordered (c.KeyReceived k).timeKeys := BTree.Ordered_ReplaceOrInsert k hord
    have hmem : k ∈ (c.KeyReceived k).timeKeys :=
      (BTree.Get_some (BTree.Get_ReplaceOrInsert_self k c.timeKeys)).2
    exact ⟨hord2, hmem, pairwise_less_nodup hord2⟩

/-- Instance of C11: on the watermark scenario a second receipt of `(10,y)`
changes nothing and the set holds no key twice. -/
theorem WatermarkTrigger.keyReceived_twice_scenario :
    (watermarkScenario.KeyReceived keyY10).KeyReceived keyY10 =
      watermarkScenario.KeyReceived keyY10 ∧
    (watermarkScenario.KeyReceived keyY10).timeKeys.Nodup :=
  ⟨(WatermarkTrigger.keyReceived_idempotent watermarkScenario keyY10).1,
    ((WatermarkTrigger.keyReceived_idempotent watermarkScenario keyY10).2 (by decide)).2.2⟩

/-! ## WASM expressions -/

namespace Wasm

theorem Evaluate_AddIntegers (l r : Expression) (ctx : GenerationContext) (vars : Variables) :
    (Expression.AddIntegers l r).Evaluate ctx vars =
      match (l.Evaluate ctx vars).2 with
      | some err => ((l.Evaluate ctx vars).1, some (.leftArgument err))
      | none =>
        match (r.Evaluate (l.Evaluate ctx vars).1 vars).2 with
        | some err => ((r.Evaluate (l.Evaluate ctx vars).1 vars).1, some (.rightArgument err))
        | none =>
          ((r.Evaluate (l.Evaluate ctx vars).1 vars).1.AppendCode [OpcodeI32Add], none) := by
  rw [Expression.Evaluate]
  rcases l.Evaluate ctx vars with ⟨ctx1, _ | err⟩
  · simp only []
    rcases r.Evaluate ctx1 vars with ⟨ctx2, _ | err2⟩ <;> rfl
  · rfl

theorem Evaluate_error_isSome (e : Expression) (vars : Variables) :
    ∀ ctx : GenerationContext,
      (e.Evaluate ctx vars).2.isSome = e.hasUnknownLocal vars := by
  induction e with
  | ConstantInteger v => intro ctx; rfl
  | ReadLocal name =>
    intro ctx
    simp only [Expression.Evaluate, Expression.hasUnknownLocal]
    cases vars name <;> rfl
  | AddIntegers l r ihl ihr =>
    intro ctx
    have hl := ihl ctx
    have hr := ihr (l.Evaluate ctx vars).1
    rw [Evaluate_AddIntegers, Expression.hasUnknownLocal, ← hl, ← hr]
    cases (l.Evaluate ctx vars).2 with
    | some err => rfl
    | none =>
      cases (r.Evaluate (l.Evaluate ctx vars).1 vars).2 with
      | some err => rfl
      | none => rfl

theorem Evaluate_code (e : Expression) (vars : Variables) :
    ∀ ctx : GenerationContext,
      (e.Evaluate ctx vars).1.Code = ctx.Code ++ e.emitted vars := by
  induction e with
  | ConstantInteger v =>
    intro ctx
    simp [Expression.Evaluate, Expression.emitted, GenerationContext.AppendCode]
  | ReadLocal name =>
    intro ctx
    simp only [Expression.Evaluate, Expression.emitted]
    cases vars name <;> simp [GenerationContext.AppendCode]
  | AddIntegers l r ihl ihr =>
    intro ctx
    have hl := ihl ctx
    have hr := ihr (l.Evaluate ctx vars).1
    have hel := Evaluate_error_isSome l vars ctx
    have her := Evaluate_error_isSome r vars (l.Evaluate ctx vars).1
    rw [Evaluate_AddIntegers, Expression.emitted, ← hel, ← her]
    cases h1 : (l.Evaluate ctx vars).2 with
    | some err =>
      simp only [Option.isSome_some, if_true]
      exact hl
    | none =>
      cases h2 : (r.Evaluate (l.Evaluate ctx vars).1 vars).2 with
      | some err =>
        simp only [Option.isSome_none, Option.isSome_some, Bool.false_eq_true, if_false, if_true]
        rw [hr, hl, List.append_assoc]
      | none =>
        simp only [Option.isSome_none, Bool.false_eq_true, if_false,
          GenerationContext.AppendCode]
        rw [hr, hl]
        simp only [List.append_assoc]

theorem emitted_eq_postfixCode (e : Expression) (vars : Variables)
    (h : e.hasUnknownLocal vars = false) : e.emitted vars = e.postfixCode vars := by
  induction e with
  | ConstantInteger v => rfl
  | ReadLocal name => rfl
  | AddIntegers l r ihl ihr =>
    simp only [Expression.hasUnknownLocal, Bool.or_eq_false_iff] at h
    simp only [Expression.emitted, Expression.postfixCode, h.1, h.2, Bool.false_eq_true, if_false,
      ihl h.1, ihr h.2]

/-- C19: on a tree of `ConstantInteger`, `ReadLocal` and `AddIntegers`,
`Evaluate` returns an error exactly when the tree holds a `ReadLocal` whose name
is not in the variables map; when it returns no error, the code of the context
is the code it held before followed by the postfix encoding of the tree. -/
theorem evaluate_succeeds_with_encoding (e : Expression) (ctx : GenerationContext)
    (vars : Variables) :
    ((e.Evaluate ctx vars).2.isSome = true ↔ e.hasUnknownLocal vars = true) ∧
    ((e.Evaluate ctx vars).2 = none →
      (e.Evaluate ctx vars).1.Code = ctx.Code ++ e.postfixCode vars) := by
  constructor
  · rw [Evaluate_error_isSome]
  · intro h
    have hu : e.hasUnknownLocal vars = false := by
      rw [← Evaluate_error_isSome e vars ctx, h]
      rfl
    rw [Evaluate_code, emitted_eq_postfixCode e vars hu]

/-- Instance of C19: with `x` at index 0, `x + 1` compiles after the byte 0 to
`local.get 0, i32.const 1, i32.add`. -/
theorem evaluate_encoding_scenario :
    ((Expression.AddIntegers (.ReadLocal "x") (.ConstantInteger 1)).Evaluate
      { Code := [0] } onlyX).1.Code = [0, 0x20, 0, 0x41, 1, 0x6a] :=
  ((evaluate_succeeds_with_encoding
    (Expression.AddIntegers (.ReadLocal "x") (.ConstantInteger 1)) { Code := [0] } onlyX).2
    (by decide)).trans (by decide)

/-- C20 fails as stated: `1 + y` with `y` unknown returns an error and leaves
the code of the left operand, `i32.const 1`, appended to the empty context. -/
theorem evaluate_failure_keeps_left_code :
    ((Expression.AddIntegers (.ConstantInteger 1) (.ReadLocal "y")).Evaluate
      { Code := [] } onlyX).2 = some (.rightArgument (.unknownVariable "y")) ∧
    ((Expression.AddIntegers (.ConstantInteger 1) (.ReadLocal "y")).Evaluate
      { Code := [] } onlyX).1.Code = [0x41, 1] := by
  decide

/-- C20 as amended: `Evaluate` never rolls back. Whether it fails or not, the
code of the context afterwards is the code it held before followed by the
code of everything compiled before the first unknown `ReadLocal` was met; a
failing `ReadLocal` itself leaves the context as it was. -/
theorem evaluate_keeps_emitted_code (e : Expression) (ctx : GenerationContext)
    (vars : Variables) :
    (e.Evaluate ctx vars).1.Code = ctx.Code ++ e.emitted vars ∧
    ∀ name, vars name = none →
      (Expression.ReadLocal name).Evaluate ctx vars = (ctx, some (.unknownVariable name)) := by
  refine ⟨Evaluate_code e vars ctx, ?_⟩
  intro name h
  simp [Expression.Evaluate, h]

/-- Instance of the amended C20: the unknown `y` alone leaves the context
as it was. -/
theorem evaluate_unknown_local_scenario :
    (Expression.ReadLocal "y").Evaluate { Code := [7] } onlyX =
      ({ Code := [7] }, some (.unknownVariable "y")) :=
  (evaluate_keeps_emitted_code (.ReadLocal "y") { Code := [7] } onlyX).2 "y" (by decide)

end Wasm

/-! ## DelayTrigger on any storage -/

namespace Trigger

namespace DelayTrigger

variable {σ : Type}

theorem KeysFired_cons (dt : DelayTrigger) (timeKeys : TimeSortedKeys σ) (tx : σ) (key : Value)
    (keys : List Value) :
    dt.KeysFired timeKeys tx (key :: keys) =
      match (timeKeys.DeleteByKey tx key).2 with
      | some err =>
        if err ≠ Error.ErrNotFound then
          ((timeKeys.DeleteByKey tx key).1,
            some (Error.Wrap err "couldn't delete send time for key"))
        else dt.KeysFired timeKeys (timeKeys.DeleteByKey tx key).1 keys
      | none => dt.KeysFired timeKeys (timeKeys.DeleteByKey tx key).1 keys := by
  rw [KeysFired]
  rcases timeKeys.DeleteByKey tx key with ⟨tx1, _ | err⟩ <;> rfl

theorem KeysFired_tolerated (dt : DelayTrigger) (timeKeys : TimeSortedKeys σ)
    (keys : List Value) :
    ∀ tx : σ, allTolerated timeKeys tx keys →
      dt.KeysFired timeKeys tx keys = (afterDeleteByKeys timeKeys tx keys, none) := by
  induction keys with
  | nil => intro tx _; rfl
  | cons key keys ih =>
    intro tx h
    obtain ⟨h1, h2⟩ := h
    rw [KeysFired_cons]
    rcases h1 with h1 | h1
    · rw [h1]
      exact ih _ h2
    · rw [h1]
      simp only [ne_eq, not_true_eq_false, if_false]
      exact ih _ h2

theorem KeysFired_append (dt : DelayTrigger) (timeKeys : TimeSortedKeys σ)
    (pre rest : List Value) :
    ∀ tx : σ, allTolerated timeKeys tx pre →
      dt.KeysFired timeKeys tx (pre ++ rest) =
        dt.KeysFired timeKeys (afterDeleteByKeys timeKeys tx pre) rest := by
  induction pre with
  | nil => intro tx _; rfl
  | cons key keys ih =>
    intro tx h
    obtain ⟨h1, h2⟩ := h
    rw [List.cons_append, KeysFired_cons]
    rcases h1 with h1 | h1
    · rw [h1]
      exact ih _ h2
    · rw [h1]
      simp only [ne_eq, not_true_eq_false, if_false]
      exact ih _ h2

theorem deleteLoop_cons (timeKeys : TimeSortedKeys σ) (key : Value) (keys : List Value)
    (time : Time) (times : List Time) (tx : σ) :
    deleteLoop timeKeys (key :: keys) (time :: times) tx =
      match (timeKeys.Delete tx key time).2 with
      | some err =>
        some ((timeKeys.Delete tx key time).1, some (Error.Wrap err "couldn't delete key"))
      | none => deleteLoop timeKeys keys times (timeKeys.Delete tx key time).1 := by
  rw [deleteLoop]
  rcases timeKeys.Delete tx key time with ⟨tx1, _ | err⟩ <;> rfl

theorem deleteLoop_error_none (timeKeys : TimeSortedKeys σ) (keys : List Value) :
    ∀ (times : List Time) (tx : σ) (r : σ × Option Error),
      deleteLoop timeKeys keys times tx = some r →
      (r.2 = none ↔ deletesSucceed timeKeys tx keys times) := by
  induction keys with
  | nil =>
    intro times tx r h
    simp only [deleteLoop, Option.some.injEq] at h
    rw [← h]
    simp [deletesSucceed]
  | cons key keys ih =>
    intro times tx r h
    cases times with
    | nil => simp [deleteLoop] at h
    | cons time times =>
      rw [deleteLoop_cons] at h
      simp only [deletesSucceed]
      cases hd : (timeKeys.Delete tx key time).2 with
      | some err =>
        rw [hd] at h
        simp only [Option.some.injEq] at h
        rw [← h]
        simp
      | none =>
        rw [hd] at h
        simp only [true_and]
        exact ih _ _ _ h

theorem deleteLoop_isSome (timeKeys : TimeSortedKeys σ) (keys : List Value) :
    ∀ (times : List Time) (tx : σ), keys.length ≤ times.length →
      (deleteLoop timeKeys keys times tx).isSome = true := by
  induction keys with
  | nil => intro times tx _; rfl
  | cons key keys ih =>
    intro times tx h
    cases times with
    | nil => simp at h
    | cons time times =>
      rw [deleteLoop_cons]
      cases (timeKeys.Delete tx key time).2 with
      | some err => rfl
      | none =>
        simp only [List.length_cons, Nat.add_le_add_iff_right] at h
        exact ih _ _ h

theorem deleteLoop_isSome_of_failure (timeKeys : TimeSortedKeys σ) (keys : List Value) :
    ∀ (times : List Time) (tx : σ), ¬ deletesSucceed timeKeys tx keys times →
      (deleteLoop timeKeys keys times tx).isSome = true := by
  induction keys with
  | nil => intro times tx _; rfl
  | cons key keys ih =>
    intro times tx h
    cases times with
    | nil => exact absurd trivial h
    | cons time times =>
      rw [deleteLoop_cons]
      simp only [deletesSucceed] at h
      cases hd : (timeKeys.Delete tx key time).2 with
      | some err => rfl
      | none =>
        simp only []
        apply ih
        intro hs
        exact h ⟨hd, hs⟩

theorem PollKeysToFire_eq (dt : DelayTrigger) (timeKeys : TimeSortedKeys σ) (now : Time)
    (tx : σ) :
    dt.PollKeysToFire timeKeys now tx =
      match (timeKeys.GetUntil tx now).2.2.2 with
      | some err =>
        some ((timeKeys.GetUntil tx now).1, [],
          some (Error.Wrap err "couldn't get first key by time"))
      | none =>
        match deleteLoop timeKeys (timeKeys.GetUntil tx now).2.1
            (timeKeys.GetUntil tx now).2.2.1 (timeKeys.GetUntil tx now).1 with
        | none => none
        | some (tx2, some err) => some (tx2, [], some err)
        | some (tx2, none) => some (tx2, (timeKeys.GetUntil tx now).2.1, none) := by
  rw [PollKeysToFire]
  rcases timeKeys.GetUntil tx now with ⟨tx1, keys, times, _ | err⟩ <;> rfl

end DelayTrigger

/-- C13: `KeysFired` never surfaces not-found. If every `DeleteByKey` of the
run returns nil or `storage.ErrNotFound`, it returns nil and leaves the state
of `DeleteByKey` applied to every key in order; if the calls before some key
are tolerated and the call on that key returns another error, it returns that
error wrapped and leaves the state of that call: no later key is processed. -/
theorem DelayTrigger.keysFired_tolerates_not_found {σ : Type} (dt : DelayTrigger)
    (timeKeys : TimeSortedKeys σ) (tx : σ) (keys : List Value) :
    (DelayTrigger.allTolerated timeKeys tx keys →
      dt.KeysFired timeKeys tx keys =
        (DelayTrigger.afterDeleteByKeys timeKeys tx keys, none)) ∧
    (∀ pre key post err, keys = pre ++ key :: post →
      DelayTrigger.allTolerated timeKeys tx pre →
      (timeKeys.DeleteByKey (DelayTrigger.afterDeleteByKeys timeKeys tx pre) key).2 = some err →
      err ≠ Error.ErrNotFound →
      dt.KeysFired timeKeys tx keys =
        ((timeKeys.DeleteByKey (DelayTrigger.afterDeleteByKeys timeKeys tx pre) key).1,
          some (Error.Wrap err "couldn't delete send time for key"))) := by
  refine ⟨DelayTrigger.KeysFired_tolerated dt timeKeys keys tx, ?_⟩
  intro pre key post err hk hpre herr hne
  rw [hk, DelayTrigger.KeysFired_append dt timeKeys pre (key :: post) tx hpre,
    DelayTrigger.KeysFired_cons, herr]
  simp only [if_pos hne]

/-- Instance of C13 on the logging storage: the keys `1, null, 4` are all
processed and nil is returned; on `1, null, (time 3), 4` the failure on the
third key is returned wrapped and the key 4 is not processed. -/
theorem DelayTrigger.keysFired_scenario :
    (NewDelayTrigger 5).KeysFired loggingTimeSortedKeys [] [.int 1, .null, .int 4] =
      ([.int 1, .null, .int 4], none) ∧
    (NewDelayTrigger 5).KeysFired loggingTimeSortedKeys [] [.int 1, .null, .time 3, .int 4] =
      ([.int 1, .null, .time 3],
        some (Error.Wrap (Error.failure 1) "couldn't delete send time for key")) :=
  ⟨(DelayTrigger.keysFired_tolerates_not_found (NewDelayTrigger 5) loggingTimeSortedKeys []
      [.int 1, .null, .int 4]).1 ⟨Or.inl rfl, Or.inr rfl, Or.inl rfl, trivial⟩,
    (DelayTrigger.keysFired_tolerates_not_found (NewDelayTrigger 5) loggingTimeSortedKeys []
      [.int 1, .null, .time 3, .int 4]).2 [.int 1, .null] (.time 3) [.int 4] (Error.failure 1)
      rfl ⟨Or.inl rfl, Or.inr rfl, trivial⟩ rfl (by decide)⟩

/-- C15: `PollKeysToFire` never returns partial results. When it returns an
error the returned slice is nil and `GetUntil` or one of the `Delete` calls has
failed; when it returns no error `GetUntil` and every `Delete` have succeeded
and the slice is the one `GetUntil` returned. It returns (does not panic)
whenever `GetUntil` fails, a `Delete` fails, or `GetUntil` yields no more keys
than times. -/
theorem DelayTrigger.pollKeysToFire_returns_keys_or_error {σ : Type} (dt : DelayTrigger)
    (timeKeys : TimeSortedKeys σ) (now : Time) (tx : σ) :
    (∀ tx1 keys err, dt.PollKeysToFire timeKeys now tx = some (tx1, keys, err) →
      (err = none ∧ keys = (timeKeys.GetUntil tx now).2.1 ∧
        (timeKeys.GetUntil tx now).2.2.2 = none ∧
        DelayTrigger.deletesSucceed timeKeys (timeKeys.GetUntil tx now).1
          (timeKeys.GetUntil tx now).2.1 (timeKeys.GetUntil tx now).2.2.1) ∨
      (err ≠ none ∧ keys = [] ∧
        ((timeKeys.GetUntil tx now).2.2.2 ≠ none ∨
          ¬ DelayTrigger.deletesSucceed timeKeys (timeKeys.GetUntil tx now).1
            (timeKeys.GetUntil tx now).2.1 (timeKeys.GetUntil tx now).2.2.1))) ∧
    ((timeKeys.GetUntil tx now).2.2.2 ≠ none ∨
        ¬ DelayTrigger.deletesSucceed timeKeys (timeKeys.GetUntil tx now).1
          (timeKeys.GetUntil tx now).2.1 (timeKeys.GetUntil tx now).2.2.1 ∨
        (timeKeys.GetUntil tx now).2.1.length ≤ (timeKeys.GetUntil tx now).2.2.1.length →
      (dt.PollKeysToFire timeKeys now tx).isSome = true) := by
  rw [DelayTrigger.PollKeysToFire_eq]
  cases hg : (timeKeys.GetUntil tx now).2.2.2 with
  | some e =>
    refine ⟨?_, fun _ => rfl⟩
    intro tx1 keys err h
    simp only [Option.some.injEq, Prod.mk.injEq] at h
    right
    refine ⟨?_, h.2.1.symm, Or.inl (by simp)⟩
    rw [← h.2.2]
    simp
  | none =>
    constructor
    · intro tx1 keys err h
      cases hl : DelayTrigger.deleteLoop timeKeys (timeKeys.GetUntil tx now).2.1
          (timeKeys.GetUntil tx now).2.2.1 (timeKeys.GetUntil tx now).1 with
      | none =>
        rw [hl] at h
        simp at h
      | some r =>
        have hspec := DelayTrigger.deleteLoop_error_none timeKeys _ _ _ r hl
        rw [hl] at h
        obtain ⟨tx2, _ | e2⟩ := r
        · simp only [Option.some.injEq, Prod.mk.injEq] at h
          left
          exact ⟨h.2.2.symm, h.2.1.symm, rfl, hspec.mp rfl⟩
        · simp only [Option.some.injEq, Prod.mk.injEq] at h
          right
          refine ⟨?_, h.2.1.symm, Or.inr ?_⟩
          · rw [← h.2.2]
            simp
          · intro hs
            have := hspec.mpr hs
            simp at this
    · intro hcases
      have hsome : (DelayTrigger.deleteLoop timeKeys (timeKeys.GetUntil tx now).2.1
          (timeKeys.GetUntil tx now).2.2.1 (timeKeys.GetUntil tx now).1).isSome = true := by
        rcases hcases with h | h | h
        · exact absurd rfl h
        · exact DelayTrigger.deleteLoop_isSome_of_failure timeKeys _ _ _ h
        · exact DelayTrigger.deleteLoop_isSome timeKeys _ _ _ h
      obtain ⟨r, hr⟩ := Option.isSome_iff_exists.mp hsome
      rw [hr]
      obtain ⟨tx2, _ | e2⟩ := r <;> rfl

/-- Instance of C15: on a storage whose `GetUntil` returns the keys 1, 2, 3 and
whose `Delete` fails on the key 2, the poll returns the wrapped failure and
no key, although the key 1 has been deleted. -/
theorem DelayTrigger.pollKeysToFire_failure_scenario :
    (NewDelayTrigger 5).PollKeysToFire failingTimeSortedKeys 0 [] =
      some ([.int 1], [], some (Error.Wrap (Error.failure 7) "couldn't delete key")) ∧
    ((NewDelayTrigger 5).PollKeysToFire failingTimeSortedKeys 0 []).isSome = true :=
  ⟨by decide,
    (DelayTrigger.pollKeysToFire_returns_keys_or_error (NewDelayTrigger 5)
      failingTimeSortedKeys 0 []).2 (Or.inr (Or.inr (by decide)))⟩

end Trigger

/-! ## DelayTrigger on the index of the spec -/

namespace Trigger

theorem lookupTime_cons (k : Value) (t : Time) (l : List (Value × Time)) (key : Value) :
    lookupTime ((k, t) :: l) key = if k = key then some t else lookupTime l key := by
  unfold lookupTime
  by_cases h : k = key
  · simp [List.find?, h]
  · simp [List.find?, h]

theorem lookupTime_filter (q : Value → Bool) (l : List (Value × Time)) (key : Value) :
    lookupTime (l.filter (fun e => q e.1)) key = if q key then lookupTime l key else none := by
  induction l with
  | nil => simp [lookupTime]
  | cons x xs ih =>
    obtain ⟨k, t⟩ := x
    rw [List.filter_cons]
    by_cases hq : q k = true
    · simp only [hq, if_true]
      rw [lookupTime_cons, lookupTime_cons, ih]
      by_cases hk : k = key
      · subst hk
        simp [hq]
      · simp [hk]
    · simp only [hq, Bool.false_eq_true, if_false]
      rw [lookupTime_cons, ih]
      by_cases hk : k = key
      · subst hk
        simp [hq]
      · simp [hk]

theorem lookupTime_some_mem {l : List (Value × Time)} {key : Value} {t : Time}
    (h : lookupTime l key = some t) : (key, t) ∈ l := by
  induction l with
  | nil => simp [lookupTime] at h
  | cons x xs ih =>
    obtain ⟨k, u⟩ := x
    rw [lookupTime_cons] at h
    by_cases hk : k = key
    · subst hk
      simp only [if_true, Option.some.injEq] at h
      subst h
      exact List.mem_cons_self _ _
    · rw [if_neg hk] at h
      exact List.mem_cons_of_mem _ (ih h)

theorem takeWhile_eq_filter {α : Type} (p : α → Bool) (l : List α)
    (h : l.Pairwise (fun a b => p b = true → p a = true)) : l.takeWhile p = l.filter p := by
  induction l with
  | nil => rfl
  | cons x xs ih =>
    have hx := List.pairwise_cons.mp h
    rw [List.takeWhile_cons, List.filter_cons]
    cases hp : p x with
    | true => simp only [if_true, ih hx.2]
    | false =>
      simp only [Bool.false_eq_true, if_false]
      symm
      apply List.filter_eq_nil_iff.mpr
      intro y hy hpy
      have := hx.1 y hy hpy
      rw [hp] at this
      exact Bool.false_ne_true this

theorem takeWhile_filter_not {α : Type} (p : α → Bool) (l : List α) :
    (l.filter (fun e => !p e)).takeWhile p = [] := by
  induction l with
  | nil => rfl
  | cons x xs ih =>
    rw [List.filter_cons]
    cases hp : p x with
    | true => simpa using ih
    | false => simp [List.takeWhile_cons, hp]

theorem entryLE_fst {a b : Time × Value} (h : entryLE a b) : a.1 ≤ b.1 := by
  rcases h with h | ⟨h, _⟩
  · exact le_of_lt h
  · exact le_of_eq h

namespace KeyTimeIndex

theorem due_eq_filter (s : KeyTimeIndex) (t : Time) (h : s.t2k.Sorted entryLE) :
    s.due t = s.t2k.filter (fun e => decide (e.1 ≤ t)) := by
  unfold due
  apply takeWhile_eq_filter
  refine List.Pairwise.imp ?_ h
  intro a b hab hb
  simp only [decide_eq_true_eq] at hb ⊢
  exact le_trans (entryLE_fst hab) hb

theorem mem_due (s : KeyTimeIndex) (t : Time) (h : s.t2k.Sorted entryLE) (e : Time × Value) :
    e ∈ s.due t ↔ e ∈ s.t2k ∧ e.1 ≤ t := by
  rw [due_eq_filter s t h, List.mem_filter]
  simp

/-- The index after `delete` on each entry of a list in turn. -/
theorem foldl_Delete (entries : List (Time × Value)) :
    ∀ s : KeyTimeIndex,
      entries.foldl (fun (s : KeyTimeIndex) e => s.Delete e.2 e.1) s =
        { k2t := s.k2t.filter (fun e => decide (e.1 ∉ entries.map Prod.snd))
          t2k := s.t2k.filter (fun e => decide (e ∉ entries)) } := by
  induction entries with
  | nil =>
    intro s
    simp
  | cons d ds ih =>
    intro s
    rw [List.foldl_cons, ih]
    simp only [Delete, List.filter_filter, List.map_cons, List.mem_cons, not_or]
    congr 1
    · apply List.filter_congr
      intro x _
      simp [Bool.and_comm]
    · apply List.filter_congr
      intro x _
      simp [Bool.and_comm]

end KeyTimeIndex

theorem deleteLoop_spec (entries : List (Time × Value)) :
    ∀ s : KeyTimeIndex,
      DelayTrigger.deleteLoop specTimeSortedKeys (entries.map Prod.snd) (entries.map Prod.fst) s =
        some (entries.foldl (fun (s : KeyTimeIndex) e => s.Delete e.2 e.1) s, none) := by
  induction entries with
  | nil => intro s; rfl
  | cons d ds ih =>
    intro s
    simp only [List.map_cons, List.foldl_cons]
    rw [DelayTrigger.deleteLoop_cons]
    exact ih _

theorem PollKeysToFire_spec (dt : DelayTrigger) (now : Time) (s : KeyTimeIndex) :
    dt.PollKeysToFire specTimeSortedKeys now s =
      some ((s.due now).foldl (fun (s : KeyTimeIndex) e => s.Delete e.2 e.1) s,
        (s.GetUntil now).1, none) := by
  have hg : specTimeSortedKeys.GetUntil s now =
      (s, ((s.due now).map Prod.snd, (s.due now).map Prod.fst, none)) := rfl
  rw [DelayTrigger.PollKeysToFire_eq, hg]
  simp only [KeyTimeIndex.GetUntil]
  rw [deleteLoop_spec]

end Trigger

namespace Trigger

namespace KeyTimeIndex

theorem sendTime_Update (s : KeyTimeIndex) (key : Value) (newTime : Time) (k : Value) :
    (s.Update key newTime).sendTime k = if key = k then some newTime else s.sendTime k := by
  unfold sendTime Update
  simp only []
  rw [lookupTime_cons]
  by_cases h : key = k
  · simp [h]
  · simp only [if_neg h]
    rw [lookupTime_filter (fun x => decide (x ≠ key)) s.k2t k]
    have : decide (k ≠ key) = true := by
      simp only [decide_eq_true_eq]
      exact fun e => h e.symm
    rw [if_pos this]

theorem mem_t2k_Update (s : KeyTimeIndex) (key : Value) (newTime : Time) (e : Time × Value) :
    e ∈ (s.Update key newTime).t2k ↔
      e = (newTime, key) ∨
        (e ∈ s.t2k ∧ e ≠ (newTime, key) ∧ ∀ prev, s.sendTime key = some prev → e ≠ (prev, key)) := by
  unfold Update
  simp only [List.mem_orderedInsert, List.mem_filter, decide_eq_true_eq]
  cases hs : s.sendTime key with
  | none =>
    simp only [List.mem_filter, decide_eq_true_eq]
    constructor
    · rintro (h | ⟨h1, h2⟩)
      · exact Or.inl h
      · exact Or.inr ⟨h1, h2, fun prev hp => by cases hp⟩
    · rintro (h | ⟨h1, h2, _⟩)
      · exact Or.inl h
      · exact Or.inr ⟨h1, h2⟩
  | some prev =>
    simp only [List.mem_filter, decide_eq_true_eq]
    constructor
    · rintro (h | ⟨⟨h1, h3⟩, h2⟩)
      · exact Or.inl h
      · refine Or.inr ⟨h1, h2, ?_⟩
        intro p hp
        cases hp
        exact h3
    · rintro (h | ⟨h1, h2, h3⟩)
      · exact Or.inl h
      · exact Or.inr ⟨⟨h1, h3 prev rfl⟩, h2⟩

theorem Consistent_empty : Consistent empty := by
  refine ⟨List.sorted_nil, ?_⟩
  intro key t
  simp [empty, sendTime, lookupTime]

theorem Consistent_Update {s : KeyTimeIndex} (h : s.Consistent) (key : Value) (newTime : Time) :
    (s.Update key newTime).Consistent := by
  obtain ⟨hsorted, hagree⟩ := h
  constructor
  · unfold Update
    simp only []
    apply List.Sorted.orderedInsert
    apply List.Pairwise.sublist (List.filter_sublist _)
    cases s.sendTime key with
    | none => exact hsorted
    | some prev => exact List.Pairwise.sublist (List.filter_sublist _) hsorted
  · intro k t
    rw [mem_t2k_Update, sendTime_Update]
    by_cases hk : key = k
    · subst hk
      simp only [if_true, Option.some.injEq]
      constructor
      · rintro (h | ⟨h1, h2, h3⟩)
        · exact (Prod.mk.inj h).1.symm
        · exact absurd rfl (h3 t ((hagree key t).mp h1))
      · intro h
        exact Or.inl (by rw [h])
    · rw [if_neg hk]
      constructor
      · rintro (h | ⟨h1, _, _⟩)
        · exact absurd (Prod.mk.inj h).2.symm hk
        · exact (hagree k t).mp h1
      · intro h
        refine Or.inr ⟨(hagree k t).mpr h, ?_, ?_⟩
        · intro he
          exact hk (Prod.mk.inj he).2.symm
        · intro prev _ he
          exact hk (Prod.mk.inj he).2.symm

/-- The index after a poll at the instant `now`. -/
theorem afterPoll_t2k (s : KeyTimeIndex) (now : Time) (h : s.t2k.Sorted entryLE) :
    ((s.due now).foldl (fun (s : KeyTimeIndex) e => s.Delete e.2 e.1) s).t2k =
      s.t2k.filter (fun e => !decide (e.1 ≤ now)) := by
  rw [foldl_Delete]
  simp only []
  apply List.filter_congr
  intro e he
  have := mem_due s now h e
  by_cases hle : e.1 ≤ now
  · have hm : e ∈ s.due now := this.mpr ⟨he, hle⟩
    simp [hm, hle]
  · have hm : e ∉ s.due now := fun hm => hle (this.mp hm).2
    simp [hm, hle]

theorem mem_dueKeys {s : KeyTimeIndex} (h : s.Consistent) (now : Time) (key : Value) :
    key ∈ (s.due now).map Prod.snd ↔ ∃ t, s.sendTime key = some t ∧ t ≤ now := by
  constructor
  · intro hm
    obtain ⟨⟨t, k⟩, he, hk⟩ := List.mem_map.mp hm
    simp only at hk
    subst hk
    have := (mem_due s now h.1 (t, k)).mp he
    exact ⟨t, (h.2 k t).mp this.1, this.2⟩
  · rintro ⟨t, ht, hle⟩
    exact List.mem_map.mpr ⟨(t, key), (mem_due s now h.1 (t, key)).mpr ⟨(h.2 key t).mpr ht, hle⟩, rfl⟩

theorem afterPoll_sendTime (s : KeyTimeIndex) (now : Time) (key : Value) :
    ((s.due now).foldl (fun (s : KeyTimeIndex) e => s.Delete e.2 e.1) s).sendTime key =
      if key ∉ (s.due now).map Prod.snd then s.sendTime key else none := by
  rw [foldl_Delete]
  unfold sendTime
  simp only []
  rw [lookupTime_filter (fun k => decide (k ∉ (s.due now).map Prod.snd)) s.k2t key]
  simp only [decide_eq_true_eq]

theorem afterPoll_Consistent {s : KeyTimeIndex} (h : s.Consistent) (now : Time) :
    ((s.due now).foldl (fun (s : KeyTimeIndex) e => s.Delete e.2 e.1) s).Consistent := by
  constructor
  · rw [afterPoll_t2k s now h.1]
    exact List.Pairwise.sublist (List.filter_sublist _) h.1
  · intro key t
    rw [afterPoll_t2k s now h.1, afterPoll_sendTime, List.mem_filter]
    simp only [Bool.not_eq_true', decide_eq_false_iff_not, not_le]
    constructor
    · rintro ⟨h1, h2⟩
      have hs := (h.2 key t).mp h1
      rw [if_pos, hs]
      intro hm
      obtain ⟨u, hu, hle⟩ := (mem_dueKeys h now key).mp hm
      rw [hs] at hu
      cases hu
      exact absurd hle (not_le.mpr h2)
    · intro hs
      by_cases hm : key ∈ (s.due now).map Prod.snd
      · rw [if_neg (not_not.mpr hm)] at hs
        cases hs
      · rw [if_pos hm] at hs
        refine ⟨(h.2 key t).mpr hs, ?_⟩
        by_contra hle
        exact hm ((mem_dueKeys h now key).mpr ⟨t, hs, not_lt.mp hle⟩)

theorem afterPoll_due (s : KeyTimeIndex) (now : Time) (h : s.t2k.Sorted entryLE) :
    ((s.due now).foldl (fun (s : KeyTimeIndex) e => s.Delete e.2 e.1) s).due now = [] := by
  unfold due
  rw [show ((List.takeWhile (fun e => decide (e.1 ≤ now)) s.t2k).foldl
      (fun (s : KeyTimeIndex) e => s.Delete e.2 e.1) s).t2k =
      s.t2k.filter (fun e => !decide (e.1 ≤ now)) from afterPoll_t2k s now h]
  exact takeWhile_filter_not (fun e => decide (e.1 ≤ now)) s.t2k

theorem sendTime_Delete_of_none (s : KeyTimeIndex) (key : Value) (time : Time) (k : Value)
    (h : s.sendTime k = none) : (s.Delete key time).sendTime k = none := by
  unfold sendTime Delete
  simp only []
  rw [lookupTime_filter (fun x => decide (x ≠ key)) s.k2t k]
  split
  · exact h
  · rfl

theorem sendTime_Delete_self (s : KeyTimeIndex) (key : Value) (time : Time) :
    (s.Delete key time).sendTime key = none := by
  unfold sendTime Delete
  simp only []
  rw [lookupTime_filter (fun x => decide (x ≠ key)) s.k2t key]
  simp

theorem sendTime_DeleteByKey_of_none (s : KeyTimeIndex) (key k : Value)
    (h : s.sendTime k = none) : (s.DeleteByKey key).1.sendTime k = none := by
  unfold DeleteByKey
  cases s.sendTime key with
  | none => exact h
  | some time => exact sendTime_Delete_of_none s key time k h

theorem sendTime_DeleteByKey_self (s : KeyTimeIndex) (key : Value) :
    (s.DeleteByKey key).1.sendTime key = none := by
  unfold DeleteByKey
  cases h : s.sendTime key with
  | none => exact h
  | some time => exact sendTime_Delete_self s key time

end KeyTimeIndex

theorem KeysFired_spec_cons (dt : DelayTrigger) (s : KeyTimeIndex) (key : Value)
    (keys : List Value) :
    dt.KeysFired specTimeSortedKeys s (key :: keys) =
      dt.KeysFired specTimeSortedKeys (s.DeleteByKey key).1 keys := by
  rw [DelayTrigger.KeysFired_cons]
  have hd : specTimeSortedKeys.DeleteByKey s key = s.DeleteByKey key := rfl
  rw [hd]
  unfold KeyTimeIndex.DeleteByKey
  cases s.sendTime key with
  | none => simp
  | some time => rfl

theorem KeysFired_spec_none (dt : DelayTrigger) (keys : List Value) :
    ∀ s : KeyTimeIndex, (dt.KeysFired specTimeSortedKeys s keys).2 = none ∧
      (∀ k, s.sendTime k = none → (dt.KeysFired specTimeSortedKeys s keys).1.sendTime k = none) ∧
      ∀ k ∈ keys, (dt.KeysFired specTimeSortedKeys s keys).1.sendTime k = none := by
  induction keys with
  | nil =>
    intro s
    refine ⟨rfl, fun k h => h, ?_⟩
    intro k hk
    cases hk
  | cons key keys ih =>
    intro s
    rw [KeysFired_spec_cons]
    obtain ⟨h1, h2, h3⟩ := ih (s.DeleteByKey key).1
    refine ⟨h1, ?_, ?_⟩
    · intro k hk
      exact h2 k (KeyTimeIndex.sendTime_DeleteByKey_of_none s key k hk)
    · intro k hk
      rcases List.mem_cons.mp hk with hk | hk
      · rw [hk]
        exact h2 key (KeyTimeIndex.sendTime_DeleteByKey_self s key)
      · exact h3 k hk

theorem KeysFired_spec_absent (dt : DelayTrigger) (keys : List Value) :
    ∀ s : KeyTimeIndex, (∀ k ∈ keys, s.sendTime k = none) →
      dt.KeysFired specTimeSortedKeys s keys = (s, none) := by
  induction keys with
  | nil => intro s _; rfl
  | cons key keys ih =>
    intro s h
    rw [KeysFired_spec_cons]
    have hk : s.sendTime key = none := h key (List.mem_cons_self _ _)
    have hd : (s.DeleteByKey key).1 = s := by
      unfold KeyTimeIndex.DeleteByKey
      rw [hk]
    rw [hd]
    exact ih s (fun k hk => h k (List.mem_cons_of_mem _ hk))

end Trigger

namespace Trigger

theorem RecordReceived_spec (dt : DelayTrigger) (now : Time) (s : KeyTimeIndex) (key : Value)
    (eventTime : Time) :
    dt.RecordReceived specTimeSortedKeys now s key eventTime =
      (s.Update key (now + dt.delay), none) := rfl

theorem mem_GetUntil {s : KeyTimeIndex} (h : s.Consistent) (now : Time) (key : Value) :
    key ∈ (s.GetUntil now).1 ↔ ∃ t, s.sendTime key = some t ∧ t ≤ now :=
  KeyTimeIndex.mem_dueKeys h now key

/-- C12: on the index of the spec the delay trigger has inactivity-delay
semantics. A receipt of `key` at the clock reading `c1` sets its send time to
`c1 + d`, whatever it was before, and touches no other key; a poll at the
reading `t` returns exactly the keys whose send time is `≤ t`; after a second
receipt of `key` at the reading `c2`, a poll at `t` returns `key` exactly when
`t ≥ c2 + d`. -/
theorem DelayTrigger.delay_counts_from_last_receipt (dt : DelayTrigger) (s : KeyTimeIndex)
    (hs : s.Consistent) (key : Value) (c1 c2 t ev1 ev2 : Time) :
    ((dt.RecordReceived specTimeSortedKeys c1 s key ev1).2 = none ∧
      (dt.RecordReceived specTimeSortedKeys c1 s key ev1).1.sendTime key = some (c1 + dt.delay) ∧
      (∀ k, k ≠ key →
        (dt.RecordReceived specTimeSortedKeys c1 s key ev1).1.sendTime k = s.sendTime k) ∧
      (dt.RecordReceived specTimeSortedKeys c1 s key ev1).1.Consistent) ∧
    (∃ s1, dt.PollKeysToFire specTimeSortedKeys t s = some (s1, (s.GetUntil t).1, none) ∧
      ∀ k, k ∈ (s.GetUntil t).1 ↔ ∃ st, s.sendTime k = some st ∧ st ≤ t) ∧
    (∃ s2 keys,
      dt.PollKeysToFire specTimeSortedKeys t
        (dt.RecordReceived specTimeSortedKeys c2
          (dt.RecordReceived specTimeSortedKeys c1 s key ev1).1 key ev2).1 = some (s2, keys, none) ∧
      (key ∈ keys ↔ c2 + dt.delay ≤ t)) := by
  have h1 : (s.Update key (c1 + dt.delay)).Consistent :=
    KeyTimeIndex.Consistent_Update hs key _
  have h2 : ((s.Update key (c1 + dt.delay)).Update key (c2 + dt.delay)).Consistent :=
    KeyTimeIndex.Consistent_Update h1 key _
  refine ⟨⟨rfl, ?_, ?_, h1⟩, ⟨_, PollKeysToFire_spec dt t s, fun k => mem_GetUntil hs t k⟩, ?_⟩
  · rw [RecordReceived_spec, KeyTimeIndex.sendTime_Update, if_pos rfl]
  · intro k hk
    rw [RecordReceived_spec, KeyTimeIndex.sendTime_Update, if_neg (Ne.symm hk)]
  · refine ⟨_, _, PollKeysToFire_spec dt t _, ?_⟩
    simp only [RecordReceived_spec]
    rw [mem_GetUntil h2 t key, KeyTimeIndex.sendTime_Update, if_pos rfl]
    constructor
    · rintro ⟨st, hst, hle⟩
      cases hst
      exact hle
    · intro hle
      exact ⟨_, rfl, hle⟩

/-- Scenario S3 for C12: delay 5 s, receipts of the key at 0 and 3 s; the poll
at 7 s returns nothing and leaves the index as it is, the poll at 8 s returns
the key. -/
theorem DelayTrigger.delay_scenario :
    (∃ s1, (NewDelayTrigger 5000000000).PollKeysToFire specTimeSortedKeys 7000000000
      delayScenario = some (s1, [], none)) ∧
    (∃ s1, (NewDelayTrigger 5000000000).PollKeysToFire specTimeSortedKeys 8000000000
      delayScenario = some (s1, [.int 1], none)) :=
  ⟨(DelayTrigger.delay_counts_from_last_receipt (NewDelayTrigger 5000000000) delayScenario
      (KeyTimeIndex.Consistent_Update
        (KeyTimeIndex.Consistent_Update KeyTimeIndex.Consistent_empty _ _) _ _)
      (.int 1) 0 0 7000000000 0 0).2.1.imp (fun _ h => h.1),
    (DelayTrigger.delay_counts_from_last_receipt (NewDelayTrigger 5000000000) delayScenario
      (KeyTimeIndex.Consistent_Update
        (KeyTimeIndex.Consistent_Update KeyTimeIndex.Consistent_empty _ _) _ _)
      (.int 1) 0 0 8000000000 0 0).2.1.imp (fun _ h => h.1)⟩

/-- C14: on a consistent index of the spec, `PollKeysToFire` returns the due
keys and removes every (key, time) pair it returns from both indexes, so a
second poll at the same clock reading returns no keys; every key whose send
time is after the clock reading keeps its send time and its entry, and the
index stays consistent. -/
theorem DelayTrigger.poll_removes_returned_pairs (dt : DelayTrigger) (s : KeyTimeIndex)
    (hs : s.Consistent) (now : Time) :
    ∃ s1, dt.PollKeysToFire specTimeSortedKeys now s = some (s1, (s.GetUntil now).1, none) ∧
      (∀ key t, (key, t) ∈ List.zip (s.GetUntil now).1 (s.GetUntil now).2 →
        (t, key) ∉ s1.t2k ∧ s1.sendTime key = none) ∧
      dt.PollKeysToFire specTimeSortedKeys now s1 = some (s1, [], none) ∧
      (∀ key t, s.sendTime key = some t → now < t →
        s1.sendTime key = some t ∧ (t, key) ∈ s1.t2k) ∧
      s1.Consistent := by
  have hc := KeyTimeIndex.afterPoll_Consistent hs now
  refine ⟨_, PollKeysToFire_spec dt now s, ?_, ?_, ?_, hc⟩
  · intro key t hm
    simp only [KeyTimeIndex.GetUntil, List.zip_map', List.mem_map, Prod.mk.injEq] at hm
    obtain ⟨⟨t1, k1⟩, he, hk, ht⟩ := hm
    simp only at hk ht
    subst hk ht
    have hdue := (KeyTimeIndex.mem_due s now hs.1 (t1, k1)).mp he
    have hnone : ((s.due now).foldl (fun (s : KeyTimeIndex) e => s.Delete e.2 e.1) s).sendTime k1
        = none := by
      rw [KeyTimeIndex.afterPoll_sendTime, if_neg]
      exact not_not.mpr (List.mem_map.mpr ⟨(t1, k1), he, rfl⟩)
    refine ⟨?_, hnone⟩
    intro hin
    rw [(hc.2 k1 t1).mp hin] at hnone
    cases hnone
  · rw [PollKeysToFire_spec, KeyTimeIndex.GetUntil, KeyTimeIndex.afterPoll_due s now hs.1]
    rfl
  · intro key t hst hlt
    have hkeep : ((s.due now).foldl (fun (s : KeyTimeIndex) e => s.Delete e.2 e.1) s).sendTime key
        = some t := by
      rw [KeyTimeIndex.afterPoll_sendTime, if_pos, hst]
      intro hm
      obtain ⟨u, hu, hle⟩ := (KeyTimeIndex.mem_dueKeys hs now key).mp hm
      rw [hst] at hu
      cases hu
      exact absurd hle (not_le.mpr hlt)
    exact ⟨hkeep, (hc.2 key t).mpr hkeep⟩

/-- Instance of C14 on scenario S3: the poll at 8 s returns the key and empties
the index; the next poll at 8 s returns nothing. -/
theorem DelayTrigger.poll_twice_scenario :
    ∃ s1, (NewDelayTrigger 5000000000).PollKeysToFire specTimeSortedKeys 8000000000
        delayScenario = some (s1, [.int 1], none) ∧
      (NewDelayTrigger 5000000000).PollKeysToFire specTimeSortedKeys 8000000000 s1 =
        some (s1, [], none) :=
  (DelayTrigger.poll_removes_returned_pairs (NewDelayTrigger 5000000000) delayScenario
    (KeyTimeIndex.Consistent_Update
      (KeyTimeIndex.Consistent_Update KeyTimeIndex.Consistent_empty _ _) _ _)
    8000000000).imp (fun _ h => ⟨h.1, h.2.2.1⟩)

/-- C16: on the index of the spec, for every index state and key list,
`KeysFired` returns no error, and a second call with the same keys returns no
error and leaves the index as the first call left it. -/
theorem DelayTrigger.keysFired_twice_same_as_once (dt : DelayTrigger) (s : KeyTimeIndex)
    (keys : List Value) :
    (dt.KeysFired specTimeSortedKeys s keys).2 = none ∧
    dt.KeysFired specTimeSortedKeys (dt.KeysFired specTimeSortedKeys s keys).1 keys =
      ((dt.KeysFired specTimeSortedKeys s keys).1, none) := by
  obtain ⟨h1, _, h3⟩ := KeysFired_spec_none dt keys s
  exact ⟨h1, KeysFired_spec_absent dt keys _ h3⟩

end Trigger

/-! ## Table valued functions -/

namespace Logical

theorem GoMap.get_cons {α : Type} (k : String) (v : α) (m : GoMap α) (name : String) :
    GoMap.get ((k, v) :: m) name = if k = name then some v else GoMap.get m name := by
  unfold GoMap.get
  by_cases h : k = name
  · simp [List.find?, h]
  · simp [List.find?, h]

theorem GoMap.mem_of_get {α : Type} {m : GoMap α} {name : String} {v : α}
    (h : GoMap.get m name = some v) : (name, v) ∈ m := by
  induction m with
  | nil => simp [GoMap.get] at h
  | cons x xs ih =>
    obtain ⟨k, u⟩ := x
    rw [GoMap.get_cons] at h
    by_cases hk : k = name
    · subst hk
      simp only [if_true, Option.some.injEq] at h
      subst h
      exact List.mem_cons_self _ _
    · rw [if_neg hk] at h
      exact List.mem_cons_of_mem _ (ih h)

theorem GoMap.get_of_mem {α : Type} {m : GoMap α} (hd : GoMap.Distinct m) {name : String} {v : α}
    (h : (name, v) ∈ m) : GoMap.get m name = some v := by
  induction m with
  | nil => cases h
  | cons x xs ih =>
    obtain ⟨k, u⟩ := x
    have hd2 := List.nodup_cons.mp hd
    rw [GoMap.get_cons]
    rcases List.mem_cons.mp h with h1 | h1
    · cases h1
      simp
    · have hne : k ≠ name := by
        intro he
        subst he
        exact hd2.1 (List.mem_map.mpr ⟨(k, v), h1, rfl⟩)
      rw [if_neg hne]
      exact ih hd2.2 h1

theorem GoMap.get_perm {α : Type} {m1 m2 : GoMap α} (hp : m1.Perm m2) (hd : GoMap.Distinct m1)
    (name : String) : GoMap.get m1 name = GoMap.get m2 name := by
  have hd2 : GoMap.Distinct m2 := (List.Perm.nodup_iff (hp.map Prod.fst)).mp hd
  cases h1 : GoMap.get m1 name with
  | some v =>
    exact (GoMap.get_of_mem hd2 (hp.mem_iff.mp (GoMap.mem_of_get h1))).symm
  | none =>
    cases h2 : GoMap.get m2 name with
    | none => rfl
    | some v =>
      rw [GoMap.get_of_mem hd (hp.mem_iff.mpr (GoMap.mem_of_get h2))] at h1
      cases h1

theorem requiredLoop_iff {τ : Type} (arguments : GoMap (TableValuedFunctionArgument τ))
    (matchers : GoMap (TableValuedFunctionArgumentMatcher τ)) :
    requiredLoop arguments matchers = true ↔
      ∀ e ∈ matchers, e.2.Required = true → (arguments.get e.1).isSome = true := by
  induction matchers with
  | nil => simp [requiredLoop]
  | cons x xs ih =>
    obtain ⟨name, arg⟩ := x
    simp only [requiredLoop, List.mem_cons, forall_eq_or_imp]
    by_cases h : arg.Required = true ∧ (arguments.get name).isNone = true
    · rw [if_pos h]
      simp only [Bool.false_eq_true, false_iff, not_and]
      intro h1
      have := h1 h.1
      rw [Option.isNone_iff_eq_none.mp h.2] at this
      cases this
    · rw [if_neg h, ih]
      constructor
      · intro h2
        refine ⟨?_, h2⟩
        intro hr
        by_contra hn
        apply h
        refine ⟨hr, ?_⟩
        cases hg : arguments.get name with
        | none => rfl
        | some v =>
          rw [hg] at hn
          exact absurd rfl hn
      · intro h2
        exact h2.2

section Typecheck

variable {τ Sch Mat : Type} [OctosqlType τ]

theorem argumentLoop_passed_iff (level : TypeRelation)
    (matchers : GoMap (TableValuedFunctionArgumentMatcher τ))
    (arguments : GoMap (TableValuedFunctionArgument τ)) :
    argumentLoop level matchers arguments = .passed ↔
      ∀ a ∈ arguments, argumentFits level (matchers.get a.1) a.2 = true := by
  induction arguments with
  | nil => simp [argumentLoop]
  | cons x xs ih =>
    obtain ⟨name, arg⟩ := x
    simp only [argumentLoop, List.mem_cons, forall_eq_or_imp]
    cases hg : matchers.get name with
    | none => simp [argumentFits]
    | some matcher =>
      simp only []
      by_cases hk : arg.TableValuedFunctionArgumentType =
          matcher.TableValuedFunctionArgumentMatcherType
      · rw [if_neg (not_not.mpr hk)]
        cases arg with
        | Expression type =>
          cases he : matcher.Expression with
          | none => simp [argumentFits, he]
          | some expression =>
            simp only []
            by_cases hl : OctosqlType.Is type expression.Type_ < level
            · rw [if_pos hl]
              simp [argumentFits, he, hk, not_le.mpr hl]
            · rw [if_neg hl, ih]
              simp [argumentFits, he, hk, not_lt.mp hl]
        | Table =>
          simp only []
          rw [ih]
          simp [argumentFits, hk]
        | Descriptor s =>
          simp only []
          rw [ih]
          simp [argumentFits, hk]
      · rw [if_pos hk]
        simp [argumentFits, hk]

theorem argumentLoop_not_panicked (level : TypeRelation)
    (matchers : GoMap (TableValuedFunctionArgumentMatcher τ))
    (hwf : ∀ e ∈ matchers,
      e.2.TableValuedFunctionArgumentMatcherType = .Expression → e.2.Expression.isSome = true)
    (arguments : GoMap (TableValuedFunctionArgument τ)) :
    argumentLoop level matchers arguments ≠ .panicked := by
  induction arguments with
  | nil => simp [argumentLoop]
  | cons x xs ih =>
    obtain ⟨name, arg⟩ := x
    simp only [argumentLoop]
    cases hg : matchers.get name with
    | none => simp
    | some matcher =>
      simp only []
      by_cases hk : arg.TableValuedFunctionArgumentType =
          matcher.TableValuedFunctionArgumentMatcherType
      · rw [if_neg (not_not.mpr hk)]
        cases arg with
        | Expression type =>
          have hsome := hwf (name, matcher) (GoMap.mem_of_get hg) hk.symm
          cases he : matcher.Expression with
          | none =>
            simp only at hsome
            rw [he] at hsome
            cases hsome
          | some expression =>
            simp only []
            split_ifs
            · simp
            · exact ih
        | Table => exact ih
        | Descriptor s => exact ih
      · rw [if_pos hk]
        simp

theorem descriptorLoop_cons (level : TypeRelation)
    (arguments : GoMap (TableValuedFunctionArgument τ))
    (d : TableValuedFunctionDescriptor τ Sch Mat)
    (rest : List (TableValuedFunctionDescriptor τ Sch Mat)) (hwf : WellFormed d) :
    descriptorLoop level arguments (d :: rest) =
      if MatchesAt level arguments d then .matched d
      else descriptorLoop level arguments rest := by
  have hreq := requiredLoop_iff arguments d.Arguments
  have harg := argumentLoop_passed_iff level d.Arguments arguments
  have hnp := argumentLoop_not_panicked level d.Arguments hwf arguments
  simp only [descriptorLoop]
  by_cases h1 : requiredLoop arguments d.Arguments = false
  · rw [if_pos h1, if_neg]
    intro hm
    rw [hreq.mpr hm.1] at h1
    cases h1
  · rw [if_neg h1]
    have h1t : requiredLoop arguments d.Arguments = true := by
      cases hr : requiredLoop arguments d.Arguments with
      | true => rfl
      | false => exact absurd hr h1
    cases hl : argumentLoop level d.Arguments arguments with
    | passed =>
      rw [if_pos ⟨hreq.mp h1t, harg.mp hl⟩]
    | skipped =>
      rw [if_neg]
      intro hm
      rw [harg.mpr hm.2] at hl
      cases hl
    | panicked => exact absurd hl hnp

theorem descriptorLoop_eq_find (level : TypeRelation)
    (arguments : GoMap (TableValuedFunctionArgument τ))
    (descriptors : List (TableValuedFunctionDescriptor τ Sch Mat))
    (hwf : ∀ d ∈ descriptors, WellFormed d) :
    descriptorLoop level arguments descriptors =
      match descriptors.find? (fun d => decide (MatchesAt level arguments d)) with
      | some d => .matched d
      | none => .exhausted := by
  induction descriptors with
  | nil => rfl
  | cons d rest ih =>
    rw [descriptorLoop_cons level arguments d rest (hwf d (List.mem_cons_self _ _)),
      List.find?_cons]
    by_cases hm : MatchesAt level arguments d
    · simp [hm]
    · simp only [hm, if_false, decide_False]
      exact ih (fun d hd => hwf d (List.mem_cons_of_mem _ hd))

theorem descriptorLoop_matched (level : TypeRelation)
    (arguments : GoMap (TableValuedFunctionArgument τ))
    (descriptors : List (TableValuedFunctionDescriptor τ Sch Mat))
    (d : TableValuedFunctionDescriptor τ Sch Mat)
    (h : descriptorLoop level arguments descriptors = .matched d) :
    d ∈ descriptors ∧ MatchesAt level arguments d := by
  induction descriptors with
  | nil => simp [descriptorLoop] at h
  | cons x rest ih =>
    simp only [descriptorLoop] at h
    by_cases h1 : requiredLoop arguments x.Arguments = false
    · rw [if_pos h1] at h
      exact ⟨List.mem_cons_of_mem _ (ih h).1, (ih h).2⟩
    · rw [if_neg h1] at h
      have h1t : requiredLoop arguments x.Arguments = true := by
        cases hr : requiredLoop arguments x.Arguments with
        | true => rfl
        | false => exact absurd hr h1
      cases hl : argumentLoop level x.Arguments arguments with
      | passed =>
        rw [hl] at h
        simp only [LoopResult.matched.injEq] at h
        subst h
        exact ⟨List.mem_cons_self _ _,
          (requiredLoop_iff arguments x.Arguments).mp h1t,
          (argumentLoop_passed_iff level x.Arguments arguments).mp hl⟩
      | skipped =>
        rw [hl] at h
        exact ⟨List.mem_cons_of_mem _ (ih h).1, (ih h).2⟩
      | panicked =>
        rw [hl] at h
        cases h

theorem argumentFits_declared {level : TypeRelation}
    {found : Option (TableValuedFunctionArgumentMatcher τ)} {arg : TableValuedFunctionArgument τ}
    (h : argumentFits level found arg = true) :
    ∃ matcher, found = some matcher ∧
      arg.TableValuedFunctionArgumentType = matcher.TableValuedFunctionArgumentMatcherType := by
  cases found with
  | none => simp [argumentFits] at h
  | some matcher =>
    simp only [argumentFits, Bool.and_eq_true, decide_eq_true_eq] at h
    exact ⟨matcher, rfl, h.1⟩

end Typecheck

end Logical

namespace Logical

theorem WellFormed_perm {τ Sch Mat : Type} {d1 d2 : TableValuedFunctionDescriptor τ Sch Mat}
    (hd : d1.Arguments.Perm d2.Arguments) (h : WellFormed d1) : WellFormed d2 :=
  fun e he => h e (hd.mem_iff.mpr he)

theorem wellFormed_transfer {τ Sch Mat : Type} (ds1 : List (TableValuedFunctionDescriptor τ Sch Mat)) :
    ∀ ds2 : List (TableValuedFunctionDescriptor τ Sch Mat),
      List.Forall₂ SameUpToOrder ds1 ds2 → (∀ d ∈ ds1, WellFormed d) →
      ∀ d ∈ ds2, WellFormed d := by
  induction ds1 with
  | nil =>
    intro ds2 hds _ d hd
    cases hds
    cases hd
  | cons x xs ih =>
    intro ds2 hds hwf d hd
    cases hds with
    | cons hhead htail =>
      rcases List.mem_cons.mp hd with h | h
      · rw [h]
        exact WellFormed_perm hhead.1 (hwf x (List.mem_cons_self _ _))
      · exact ih _ htail (fun d hd => hwf d (List.mem_cons_of_mem _ hd)) d h

theorem buildNode_sameUpToOrder {τ Sch Mat : Type} (name : String) {a1 a2 : GoMap (TableValuedFunctionArgument τ)}
    (ha : a1.Perm a2) {d1 d2 : TableValuedFunctionDescriptor τ Sch Mat}
    (hd : SameUpToOrder d1 d2) :
    (buildNode name a1 d1).SameUpToOrder (buildNode name a2 d2) := by
  unfold buildNode
  rw [hd.2.2 a1 a2 ha]
  cases d2.OutputSchema a2 with
  | error err => exact rfl
  | ok r => exact ⟨rfl, rfl, ha, hd.2.1, rfl⟩

section Typecheck

variable {τ Sch Mat : Type} [OctosqlType τ]

theorem Typecheck_eq_find
    (tableValuedFunctions : String → List (TableValuedFunctionDescriptor τ Sch Mat))
    (name : String) (arguments : GoMap (TableValuedFunctionArgument τ))
    (hwf : ∀ d ∈ tableValuedFunctions name, WellFormed d) :
    Typecheck tableValuedFunctions name arguments =
      match (tableValuedFunctions name).find?
          (fun d => decide (MatchesAt TypeRelationIs arguments d)) with
      | some d => buildNode name arguments d
      | none =>
        match (tableValuedFunctions name).find?
            (fun d => decide (MatchesAt TypeRelationMaybe arguments d)) with
        | some d => buildNode name arguments d
        | none => .panicUnknown name arguments := by
  unfold Typecheck
  simp only []
  rw [descriptorLoop_eq_find TypeRelationIs arguments _ hwf,
    descriptorLoop_eq_find TypeRelationMaybe arguments _ hwf]
  cases (tableValuedFunctions name).find?
      (fun d => decide (MatchesAt TypeRelationIs arguments d)) with
  | some d => rfl
  | none =>
    cases (tableValuedFunctions name).find?
        (fun d => decide (MatchesAt TypeRelationMaybe arguments d)) with
    | some d => rfl
    | none => rfl

theorem MatchesAt_perm (level : TypeRelation) {a1 a2 : GoMap (TableValuedFunctionArgument τ)}
    {d1 d2 : TableValuedFunctionDescriptor τ Sch Mat} (ha : a1.Perm a2)
    (hda : GoMap.Distinct a1) (hd : d1.Arguments.Perm d2.Arguments)
    (hdd : GoMap.Distinct d1.Arguments) :
    MatchesAt level a1 d1 ↔ MatchesAt level a2 d2 := by
  unfold MatchesAt
  constructor
  · rintro ⟨h1, h2⟩
    constructor
    · intro e he hr
      rw [← GoMap.get_perm ha hda]
      exact h1 e (hd.mem_iff.mpr he) hr
    · intro a hm
      rw [← GoMap.get_perm hd hdd]
      exact h2 a (ha.mem_iff.mpr hm)
  · rintro ⟨h1, h2⟩
    constructor
    · intro e he hr
      rw [GoMap.get_perm ha hda]
      exact h1 e (hd.mem_iff.mp he) hr
    · intro a hm
      rw [GoMap.get_perm hd hdd]
      exact h2 a (ha.mem_iff.mp hm)

theorem find_sameUpToOrder (level : TypeRelation) {a1 a2 : GoMap (TableValuedFunctionArgument τ)}
    (ha : a1.Perm a2) (hda : GoMap.Distinct a1)
    (ds1 : List (TableValuedFunctionDescriptor τ Sch Mat)) :
    ∀ ds2 : List (TableValuedFunctionDescriptor τ Sch Mat),
      List.Forall₂ SameUpToOrder ds1 ds2 → (∀ d ∈ ds1, GoMap.Distinct d.Arguments) →
      (ds1.find? (fun d => decide (MatchesAt level a1 d)) = none ∧
        ds2.find? (fun d => decide (MatchesAt level a2 d)) = none) ∨
      ∃ d1 d2, ds1.find? (fun d => decide (MatchesAt level a1 d)) = some d1 ∧
        ds2.find? (fun d => decide (MatchesAt level a2 d)) = some d2 ∧ SameUpToOrder d1 d2 := by
  induction ds1 with
  | nil =>
    intro ds2 hds _
    cases hds
    exact Or.inl ⟨rfl, rfl⟩
  | cons x xs ih =>
    intro ds2 hds hdd
    cases hds with
    | cons hhead htail =>
      rename_i y ys
      have hiff := MatchesAt_perm level ha hda hhead.1
        (hdd x (List.mem_cons_self _ _))
      rw [List.find?_cons, List.find?_cons]
      by_cases hm : MatchesAt level a1 x
      · have hm2 := hiff.mp hm
        right
        exact ⟨x, y, by simp [hm], by simp [hm2], hhead⟩
      · have hm2 : ¬ MatchesAt level a2 y := fun h => hm (hiff.mpr h)
        simp only [hm, hm2, decide_False]
        exact ih ys htail (fun d hd => hdd d (List.mem_cons_of_mem _ hd))

theorem Typecheck_sameUpToOrder
    (tvfs1 tvfs2 : String → List (TableValuedFunctionDescriptor τ Sch Mat)) (name : String)
    {a1 a2 : GoMap (TableValuedFunctionArgument τ)} (ha : a1.Perm a2)
    (hda : GoMap.Distinct a1)
    (hds : List.Forall₂ SameUpToOrder (tvfs1 name) (tvfs2 name))
    (hwf : ∀ d ∈ tvfs1 name, WellFormed d ∧ GoMap.Distinct d.Arguments) :
    (Typecheck tvfs1 name a1).SameUpToOrder (Typecheck tvfs2 name a2) := by
  have hwf1 : ∀ d ∈ tvfs1 name, WellFormed d := fun d hd => (hwf d hd).1
  have hdd : ∀ d ∈ tvfs1 name, GoMap.Distinct d.Arguments := fun d hd => (hwf d hd).2
  have hwf2 := wellFormed_transfer (tvfs1 name) (tvfs2 name) hds hwf1
  rw [Typecheck_eq_find tvfs1 name a1 hwf1, Typecheck_eq_find tvfs2 name a2 hwf2]
  rcases find_sameUpToOrder TypeRelationIs ha hda _ _ hds hdd with
    ⟨h1, h2⟩ | ⟨d1, d2, h1, h2, hr⟩
  · rw [h1, h2]
    rcases find_sameUpToOrder TypeRelationMaybe ha hda _ _ hds hdd with
      ⟨h3, h4⟩ | ⟨d1, d2, h3, h4, hr⟩
    · rw [h3, h4]
      exact ⟨rfl, ha⟩
    · rw [h3, h4]
      exact buildNode_sameUpToOrder name ha hr
  · rw [h1, h2]
    exact buildNode_sameUpToOrder name ha hr

end Typecheck

end Logical

namespace Logical

/-- C17: with well-formed descriptors registered under the name, `Typecheck`
resolves overloads in two passes: it ends with the node built from the first
descriptor, in list order, that matches with every expression argument at
`TypeRelationIs`; only when none matches at that level, with the node built
from the first descriptor that matches at `TypeRelationMaybe`; when none
matches at either level it panics with `unknown table valued function`. So
whenever some descriptor matches at `TypeRelationIs`, the result is built from
such a descriptor, whatever matches at `TypeRelationMaybe` before it. Building
the node calls `OutputSchema`, whose error is a panic. -/
theorem typecheck_resolves_in_two_passes {τ Sch Mat : Type} [OctosqlType τ]
    (tableValuedFunctions : String → List (TableValuedFunctionDescriptor τ Sch Mat))
    (name : String) (arguments : GoMap (TableValuedFunctionArgument τ))
    (hwf : ∀ d ∈ tableValuedFunctions name, WellFormed d) :
    Typecheck tableValuedFunctions name arguments =
      (match (tableValuedFunctions name).find?
          (fun d => decide (MatchesAt TypeRelationIs arguments d)) with
      | some d => buildNode name arguments d
      | none =>
        match (tableValuedFunctions name).find?
            (fun d => decide (MatchesAt TypeRelationMaybe arguments d)) with
        | some d => buildNode name arguments d
        | none => .panicUnknown name arguments) ∧
    ((∃ d ∈ tableValuedFunctions name, MatchesAt TypeRelationIs arguments d) →
      ∃ d ∈ tableValuedFunctions name, MatchesAt TypeRelationIs arguments d ∧
        Typecheck tableValuedFunctions name arguments = buildNode name arguments d) := by
  have h := Typecheck_eq_find tableValuedFunctions name arguments hwf
  refine ⟨h, ?_⟩
  rintro ⟨d, hd, hm⟩
  cases hf : (tableValuedFunctions name).find?
      (fun d => decide (MatchesAt TypeRelationIs arguments d)) with
  | none =>
    have := List.find?_eq_none.mp hf d hd
    simp only [decide_eq_true_eq] at this
    exact absurd hm this
  | some d1 =>
    rw [hf] at h
    have hp := List.find?_some hf
    simp only [decide_eq_true_eq] at hp
    exact ⟨d1, List.mem_of_find?_eq_some hf, hp, h⟩

/-- Instance of C17: under `f` an overload for the type 1 comes before one for
the type 0; an argument of type 0 matches the first at `TypeRelationMaybe` and
the second at `TypeRelationIs`, and the node is built from the second. -/
theorem typecheck_overload_scenario :
    Typecheck scenarioRegistry "f" [("x", .Expression 0)] =
      .node 20 "f" [("x", .Expression 0)] 20 [] ∧
    MatchesAt TypeRelationMaybe [("x", .Expression 0)] (scenarioDescriptor 1 10) :=
  ⟨(typecheck_resolves_in_two_passes scenarioRegistry "f" [("x", .Expression 0)]
      (by decide)).1.trans (by decide), by decide⟩

/-- C18: whenever `Typecheck` returns a node, it is built from a registered
descriptor for which every required argument is among the supplied ones, every
supplied name is declared and every supplied argument has the kind of its
matcher. With well-formed descriptors the result does not depend on the order
of the entries of the argument maps: for the same maps in another order it is
the same up to the order of the recorded arguments. -/
theorem typecheck_node_fits_descriptor {τ Sch Mat : Type} [OctosqlType τ]
    (tableValuedFunctions : String → List (TableValuedFunctionDescriptor τ Sch Mat))
    (name : String) (arguments : GoMap (TableValuedFunctionArgument τ)) :
    (∀ schema n a m o, Typecheck tableValuedFunctions name arguments = .node schema n a m o →
      ∃ d ∈ tableValuedFunctions name,
        buildNode name arguments d = .node schema n a m o ∧
        (∀ e ∈ d.Arguments, e.2.Required = true → (arguments.get e.1).isSome = true) ∧
        (∀ x ∈ arguments, ∃ matcher, d.Arguments.get x.1 = some matcher ∧
          x.2.TableValuedFunctionArgumentType =
            matcher.TableValuedFunctionArgumentMatcherType)) ∧
    (∀ (others : String → List (TableValuedFunctionDescriptor τ Sch Mat))
      (reordered : GoMap (TableValuedFunctionArgument τ)),
      arguments.Perm reordered → GoMap.Distinct arguments →
      List.Forall₂ SameUpToOrder (tableValuedFunctions name) (others name) →
      (∀ d ∈ tableValuedFunctions name, WellFormed d ∧ GoMap.Distinct d.Arguments) →
      (Typecheck tableValuedFunctions name arguments).SameUpToOrder
        (Typecheck others name reordered)) := by
  constructor
  · intro schema n a m o h
    have key : ∀ level d,
        descriptorLoop level arguments (tableValuedFunctions name) = .matched d →
        buildNode name arguments d = .node schema n a m o →
        ∃ d ∈ tableValuedFunctions name,
          buildNode name arguments d = .node schema n a m o ∧
          (∀ e ∈ d.Arguments, e.2.Required = true → (arguments.get e.1).isSome = true) ∧
          (∀ x ∈ arguments, ∃ matcher, d.Arguments.get x.1 = some matcher ∧
            x.2.TableValuedFunctionArgumentType =
              matcher.TableValuedFunctionArgumentMatcherType) := by
      intro level d hl hb
      obtain ⟨hd, hreq, hfit⟩ := descriptorLoop_matched level arguments _ d hl
      exact ⟨d, hd, hb, hreq, fun x hx => argumentFits_declared (hfit x hx)⟩
    unfold Typecheck at h
    simp only [] at h
    cases h1 : descriptorLoop TypeRelationIs arguments (tableValuedFunctions name) with
    | matched d =>
      rw [h1] at h
      exact key _ d h1 h
    | panicked =>
      rw [h1] at h
      cases h
    | exhausted =>
      rw [h1] at h
      simp only [] at h
      cases h2 : descriptorLoop TypeRelationMaybe arguments (tableValuedFunctions name) with
      | matched d =>
        rw [h2] at h
        exact key _ d h2 h
      | panicked =>
        rw [h2] at h
        cases h
      | exhausted =>
        rw [h2] at h
        cases h
  · intro others reordered ha hda hds hwf
    exact Typecheck_sameUpToOrder tableValuedFunctions others name ha hda hds hwf

/-- Instance of C18: the node returned for an argument `x` of type 1 is built
from the first overload, whose required `x` is supplied with the kind
expression. -/
theorem typecheck_node_scenario :
    ∃ d ∈ scenarioRegistry "f",
      buildNode "f" [("x", .Expression 1)] d = .node 10 "f" [("x", .Expression 1)] 10 [] ∧
      (∀ e ∈ d.Arguments, e.2.Required = true →
        (GoMap.get [("x", TableValuedFunctionArgument.Expression 1)] e.1).isSome = true) ∧
      (∀ x ∈ [("x", TableValuedFunctionArgument.Expression 1)],
        ∃ matcher, d.Arguments.get x.1 = some matcher ∧
          x.2.TableValuedFunctionArgumentType =
            matcher.TableValuedFunctionArgumentMatcherType) :=
  (typecheck_node_fits_descriptor scenarioRegistry "f" [("x", .Expression 1)]).1
    10 "f" [("x", .Expression 1)] 10 [] (by decide)

end Logical

end Octosql
